import Mathlib

/-!
Verification development for the NCrystal configuration / NCMAT parsing core
(files NCMatCfg.cc and NCParseNCMAT.cc of the repository under study).

Strings are modelled as lists of characters.  IEEE-754 doubles are modelled
exactly: every value that the configuration machinery can hold is of the form
a + b*pi with a, b rational (pi enters only through the angle unit constants
kDeg, kArcMin, kArcSec), so a value is a pair of rationals interpreted as
a + b*pi.  Arithmetic on such values is exact; this models the mathematical
content of the code while keeping every definition executable and decidable.

The helper functions of NCString.cc (trim, split, str2dbl, str2int, ...) are
declared in src but their implementations are not part of the sources under
study; they are modelled here from their documented contracts in NCString.hh
(trim strips the whitespace characters space, tab, CR, LF from both ends;
split with a separator character keeps empty parts, split on whitespace does
not; str2dbl / str2int parse a complete numeric literal and fail otherwise).
-/

namespace NCrystal

/-- Strings are lists of characters. -/
abbrev Str := List Char

/-- Whitespace characters stripped by NCString trim ( space tab CR LF ). -/
def wsChar (c : Char) : Bool :=
  c = ' ' || c = Char.ofNat 9 || c = Char.ofNat 13 || c = Char.ofNat 10

/-- Characters allowed by isSimpleASCII: printable ASCII byte values 32..126. -/
def simpleAsciiChar (c : Char) : Bool :=
  32 ≤ c.toNat && c.toNat ≤ 126

/-- Modelled from NCString.hh: isSimpleASCII with optional admission of tabs
and newline characters. -/
def isSimpleASCII (s : Str) (allowTab allowNL : Bool) : Bool :=
  s.all fun c =>
    simpleAsciiChar c || (allowTab && c = Char.ofNat 9)
      || (allowNL && (c = Char.ofNat 10 || c = Char.ofNat 13))

/-- The latin letters a-z A-Z, as used for the unit-suffix scan in
ValDbl::set_from_strrep (the local string named alpha). -/
def isAlphaAZ (c : Char) : Bool :=
  (97 ≤ c.toNat && c.toNat ≤ 122) || (65 ≤ c.toNat && c.toNat ≤ 90)

/-- Decimal digit characters. -/
def digitB (c : Char) : Bool :=
  48 ≤ c.toNat && c.toNat ≤ 57

/-- Upper-case letters. -/
def upperB (c : Char) : Bool :=
  65 ≤ c.toNat && c.toNat ≤ 90

/-- Lower-case letters. -/
def lowerB (c : Char) : Bool :=
  97 ≤ c.toNat && c.toNat ≤ 122

/-- Strip leading whitespace. -/
def trimLeft : Str → Str
  | [] => []
  | c :: t => if wsChar c then trimLeft t else c :: t

/-- Strip trailing whitespace. -/
def trimRight : Str → Str
  | [] => []
  | c :: t =>
    let r := trimRight t
    if r = [] ∧ wsChar c then [] else c :: r

/-- Modelled from NCString.hh: trim strips whitespace from both ends. -/
def trim (s : Str) : Str :=
  trimRight (trimLeft s)

/-- Split on every character satisfying p, keeping empty parts
(the sep-is-a-character behaviour of NCString split, python-like). -/
def splitP (p : Char → Bool) : Str → List Str
  | [] => [[]]
  | c :: t =>
    let r := splitP p t
    if p c then [] :: r
    else
      match r with
      | [] => [[c]]
      | h :: rt => (c :: h) :: rt

/-- Split on a separator character, keeping empty parts. -/
def splitCh (sep : Char) (s : Str) : List Str :=
  splitP (fun c => c = sep) s

/-- Split on general whitespace, discarding empty parts
(the sep = 0 behaviour of NCString split). -/
def wsSplit (s : Str) : List Str :=
  (splitP wsChar s).filter fun w => !w.isEmpty

/-- Modelled from NCString.hh: check whether any of the needle characters
occurs in the haystack. -/
def containsAny (s needles : Str) : Bool :=
  s.any fun c => needles.any fun n => n = c

/-- Modelled from NCString.hh: check whether the haystack consists solely of
needle characters. -/
def containsOnly (s needles : Str) : Bool :=
  s.all fun c => needles.any fun n => n = c

/-- Modelled from NCString.hh startswith. -/
def strStarts (s pre : Str) : Bool :=
  s.take pre.length = pre

/-- Find the start index of the first occurrence of pat inside s
(std::string::find). -/
def findSub (pat s : Str) : Option Nat :=
  match s with
  | [] => if pat = [] then some 0 else none
  | _ :: t =>
    if strStarts s pat then some 0
    else (findSub pat t).map (· + 1)

/-- Digit run at the front of a string, with the rest. -/
def takeDigits : Str → Str × Str
  | [] => ([], [])
  | c :: t =>
    if digitB c then
      let r := takeDigits t
      (c :: r.1, r.2)
    else ([], c :: t)

/-- Numeric value of a digit string (most significant first). -/
def digitsToNat (ds : Str) : Nat :=
  ds.foldl (fun acc c => 10 * acc + (c.toNat - 48)) 0

/-- Optional leading sign; returns (isNegative, rest). -/
def parseSign : Str → Bool × Str
  | [] => (false, [])
  | c :: t =>
    if c = '-' then (true, t)
    else if c = '+' then (false, t)
    else (false, c :: t)

/-- Exponent-part parse for a float literal: the characters after the e / E.
Requires an optionally signed non-empty digit run consuming everything. -/
def parseExpTail (s : Str) : Option Int :=
  let (neg, s1) := parseSign s
  let (ds, rest) := takeDigits s1
  if ds = [] || rest ≠ [] then none
  else some (if neg then -(digitsToNat ds : Int) else (digitsToNat ds : Int))

/-- Modelled from the spec: NCString str2dbl (implementation not under src).
Strict parse of a complete decimal literal
sign? digits? ( . digits? )? ( (e|E) sign? digits )? with at least one
mantissa digit, returned as the exact rational value. -/
def str2dblQ (s : Str) : Option ℚ :=
  let sg := parseSign s
  let ipr := takeDigits sg.2
  let fpr : Str × Str :=
    if ipr.2.head? = some '.' then takeDigits ipr.2.tail else ([], ipr.2)
  if ipr.1 = [] ∧ fpr.1 = [] then none
  else
    let readExp : Option Int :=
      if fpr.2 = [] then some 0
      else if fpr.2.head? = some 'e' ∨ fpr.2.head? = some 'E' then
        parseExpTail fpr.2.tail
      else none
    match readExp with
    | none => none
    | some ex =>
      let mag : ℚ :=
        (digitsToNat ipr.1 : ℚ) + (digitsToNat fpr.1 : ℚ) / ((10 : ℚ) ^ fpr.1.length)
      some ((if sg.1 then -mag else mag) * (10 : ℚ) ^ ex)

/-- Modelled from the spec: NCString str2int (implementation not under src).
Strict parse of a complete optionally signed integer literal. -/
def str2intZ (s : Str) : Option Int :=
  let (neg, s1) := parseSign s
  let (ds, rest) := takeDigits s1
  if ds = [] || rest ≠ [] then none
  else some (if neg then -(digitsToNat ds : Int) else (digitsToNat ds : Int))

/-- Decimal digit characters of a natural number, most significant first
(fuel-based recursion; any fuel above the value itself is enough). -/
def natToStrAux : Nat → Nat → Str
  | 0, _ => []
  | fuel + 1, n =>
    if n < 10 then [Char.ofNat (48 + n)]
    else natToStrAux fuel (n / 10) ++ [Char.ofNat (48 + n % 10)]

/-- Decimal digit characters of a natural number, most significant first. -/
def natToStr (n : Nat) : Str :=
  natToStrAux (n + 1) n

/-- Decimal rendering of an integer (operator << on an int-valued stream). -/
def intToStr (n : Int) : Str :=
  if n < 0 then '-' :: natToStr n.natAbs else natToStr n.natAbs

/-- Round to the nearest integer, ties to even (the rounding used when a
binary double is rendered in decimal). -/
def roundHE (q : ℚ) : ℤ :=
  let f := q.floor
  let r := q - f
  if r < 1/2 then f
  else if 1/2 < r then f + 1
  else if f % 2 = 0 then f else f + 1

/-- Largest e with 10 ^ e ≤ q, for positive q (decimal exponent). -/
def qExp10 (q : ℚ) : ℤ :=
  let g : ℤ := (natToStr q.num.natAbs).length - (natToStr q.den).length
  if (10 : ℚ) ^ g ≤ q then g else g - 1

/-- Drop trailing zero digits. -/
def stripZerosRight (s : Str) : Str :=
  (s.reverse.dropWhile fun c => c = '0').reverse

/-- Default-notation rendering of a rational to prec significant digits:
the model of streaming a double through std::stringstream with
setprecision(prec), i.e. printf %g style (fixed notation when the decimal
exponent is in [-4, prec), otherwise scientific, trailing zeros removed). -/
def fmtG (prec : Nat) (q : ℚ) : Str :=
  if q = 0 then ['0']
  else
    let p := max prec 1
    let a := |q|
    let e := qExp10 a
    let scaled := a * (10 : ℚ) ^ ((p : ℤ) - 1 - e)
    let n := (roundHE scaled).toNat
    let ne1 : Nat × ℤ := if n = 10 ^ p then (10 ^ (p - 1), e + 1) else (n, e)
    let ds := natToStr ne1.1
    let e1 := ne1.2
    let core :=
      if -4 ≤ e1 ∧ e1 < (p : ℤ) then
        if 0 ≤ e1 then
          let k := e1.toNat + 1
          let fpart := stripZerosRight (ds.drop k)
          if fpart = [] then ds.take k else ds.take k ++ '.' :: fpart
        else
          '0' :: '.' :: (List.replicate ((-e1).toNat - 1) '0' ++ stripZerosRight ds)
      else
        let fpart := stripZerosRight ds.tail
        let mant := if fpart = [] then ds.take 1 else ds.take 1 ++ '.' :: fpart
        let eabs := (if e1 < 0 then -e1 else e1).toNat
        let edigits := natToStr eabs
        let edigits2 := if edigits.length < 2 then '0' :: edigits else edigits
        mant ++ 'e' :: (if e1 < 0 then '-' else '+') :: edigits2
    if q < 0 then '-' :: core else core

/-- A double value of the configuration machinery, represented exactly as
ra + rb * pi (pi enters only through the angle unit constants). -/
structure DVal where
  ra : ℚ
  rb : ℚ
deriving DecidableEq, Repr

/-- Embed a rational (every parsed numeric literal is one). -/
def DVal.ofQ (q : ℚ) : DVal := ⟨q, 0⟩

/-- The value unitoffset + unitfact * q computed by ValDbl::set_from_strrep;
the parsed literal q is always a pure rational, the factor may carry pi. -/
def DVal.affineApply (fact : DVal) (off q : ℚ) : DVal :=
  ⟨off + fact.ra * q, fact.rb * q⟩

/-- The double value of pi, as a rational; used only to render values that
carry a pi component (never reached by configurations built from strings). -/
def piDouble : ℚ := 3141592653589793 / 10 ^ 15

/-- Decimal rendering of a value at a given precision. -/
def DVal.fmt (prec : Nat) (d : DVal) : Str :=
  fmtG prec (d.ra + d.rb * piDouble)

/-- The error kinds of the NCrystal exception hierarchy that this
development distinguishes. -/
inductive ErrKind
  | badInput
  | fileNotFound
  | missingInfo
  | logicError
deriving DecidableEq, Repr

deriving instance DecidableEq for Except

/-- ValDbl::UnitType. -/
inductive UnitType
  | utNone
  | utAngle
  | utTemp
  | utLength
deriving DecidableEq

/-- The unit table of ValDbl::set_from_strrep: for a recognised suffix the
pair (unitfact, unitoffset).  The constants kDeg, kArcMin, kArcSec, whose
defining header is not under src, are modelled from the spec as pi/180,
pi/10800, pi/648000, carried symbolically in the rb component. -/
def unitLookup : UnitType → Str → Option (DVal × ℚ)
  | .utAngle, u =>
    if u = ("rad".toList) then some (⟨1, 0⟩, 0)
    else if u = ("deg".toList) then some (⟨0, 1/180⟩, 0)
    else if u = ("arcmin".toList) then some (⟨0, 1/10800⟩, 0)
    else if u = ("arcsec".toList) then some (⟨0, 1/648000⟩, 0)
    else none
  | .utLength, u =>
    if u = ("Aa".toList) then some (⟨1, 0⟩, 0)
    else if u = ("nm".toList) then some (⟨10, 0⟩, 0)
    else if u = ("mm".toList) then some (⟨10 ^ 7, 0⟩, 0)
    else if u = ("cm".toList) then some (⟨10 ^ 8, 0⟩, 0)
    else if u = ("m".toList) then some (⟨10 ^ 10, 0⟩, 0)
    else none
  | .utTemp, u =>
    if u = ("K".toList) then some (⟨1, 0⟩, 0)
    else if u = ("C".toList) then some (⟨1, 0⟩, 27315/100)
    else if u = ("F".toList) then some (⟨5/9, 0⟩, 27315/100 - 160/9)
    else none
  | .utNone, _ => none

/-- Whether the last character of a string is a latin letter. -/
def lastIsAlpha (s : Str) : Bool :=
  match s.getLast? with
  | some c => isAlphaAZ c
  | none => false

/-- The trailing run of letters of the trimmed input (the unit suffix the
while-loop of ValDbl::set_from_strrep isolates). -/
def unitOf (tmp : Str) : Str :=
  (tmp.reverse.takeWhile isAlphaAZ).reverse

/-- The number part left of the unit suffix, re-trimmed
(tmp.resize(iunit) followed by trim(tmp)). -/
def numPartOf (tmp : Str) : Str :=
  trim (tmp.take (tmp.length - (unitOf tmp).length))

/-- MatCfg::Impl::ValDbl::set_from_strrep: trim, strip a trailing run of
letters as the unit when the value type has a unit class, convert through
the unit table, and remember the normalised original text (the value of the
origstrrep member) for lossless re-serialisation.  Setting a value never
yields NaN here since arithmetic is exact. -/
def setDblFromStr (ut : UnitType) (s : Str) : Except ErrKind (DVal × Str) :=
  if ut ≠ UnitType.utNone ∧ 1 < (trim s).length ∧ lastIsAlpha (trim s) then
    match unitLookup ut (unitOf (trim s)) with
    | none => .error .badInput
    | some fo =>
      match str2dblQ (numPartOf (trim s)) with
      | none => .error .badInput
      | some q =>
        .ok (DVal.affineApply fo.1 fo.2 q, trim (numPartOf (trim s) ++ unitOf (trim s)))
  else
    match str2dblQ (trim s) with
    | none => .error .badInput
    | some q => .ok (DVal.ofQ q, trim s)

/-- The parameter value types (MatCfg::Impl::VALTYPE). -/
inductive VType
  | tDbl
  | tInt
  | tBool
  | tStr
  | tOrient
  | tVec
  | tAtomDB
deriving DecidableEq

/-- The closed parameter catalog (MatCfg::Impl::PARAMETERS), in the
alphabetical enum order of the source. -/
inductive Param
  | absnfactory
  | atomdb
  | coh_elas
  | dcutoff
  | dcutoffup
  | dir1
  | dir2
  | dirtol
  | incoh_elas
  | inelas
  | infofactory
  | lcaxis
  | lcmode
  | mos
  | mosprec
  | overridefileext
  | packfact
  | scatfactory
  | sccutoff
  | temp
  | vdoslux
deriving DecidableEq, Fintype

/-- The parnames array. -/
def parname : Param → Str
  | .absnfactory => ("absnfactory".toList)
  | .atomdb => ("atomdb".toList)
  | .coh_elas => ("coh_elas".toList)
  | .dcutoff => ("dcutoff".toList)
  | .dcutoffup => ("dcutoffup".toList)
  | .dir1 => ("dir1".toList)
  | .dir2 => ("dir2".toList)
  | .dirtol => ("dirtol".toList)
  | .incoh_elas => ("incoh_elas".toList)
  | .inelas => ("inelas".toList)
  | .infofactory => ("infofactory".toList)
  | .lcaxis => ("lcaxis".toList)
  | .lcmode => ("lcmode".toList)
  | .mos => ("mos".toList)
  | .mosprec => ("mosprec".toList)
  | .overridefileext => ("overridefileext".toList)
  | .packfact => ("packfact".toList)
  | .scatfactory => ("scatfactory".toList)
  | .sccutoff => ("sccutoff".toList)
  | .temp => ("temp".toList)
  | .vdoslux => ("vdoslux".toList)

/-- The partypes array. -/
def partype : Param → VType
  | .absnfactory => .tStr
  | .atomdb => .tAtomDB
  | .coh_elas => .tBool
  | .dcutoff => .tDbl
  | .dcutoffup => .tDbl
  | .dir1 => .tOrient
  | .dir2 => .tOrient
  | .dirtol => .tDbl
  | .incoh_elas => .tBool
  | .inelas => .tStr
  | .infofactory => .tStr
  | .lcaxis => .tVec
  | .lcmode => .tInt
  | .mos => .tDbl
  | .mosprec => .tDbl
  | .overridefileext => .tStr
  | .packfact => .tDbl
  | .scatfactory => .tStr
  | .sccutoff => .tDbl
  | .temp => .tDbl
  | .vdoslux => .tInt

/-- addUnitsForValType: the unit class attached to a double parameter when
its value object is created. -/
def unitsFor : Param → UnitType
  | .mos => .utAngle
  | .dirtol => .utAngle
  | .temp => .utTemp
  | .dcutoff => .utLength
  | .dcutoffup => .utLength
  | _ => .utNone

/-- All parameters in enum (alphabetical) order. -/
def allParams : List Param :=
  [.absnfactory, .atomdb, .coh_elas, .dcutoff, .dcutoffup, .dir1, .dir2,
   .dirtol, .incoh_elas, .inelas, .infofactory, .lcaxis, .lcmode, .mos,
   .mosprec, .overridefileext, .packfact, .scatfactory, .sccutoff, .temp,
   .vdoslux]

/-- A stored parameter value (the concrete ValBase subclasses).  Double,
orientation and vector values remember the normalised original text
(origstrrep) used for lossless re-serialisation; the unit class of a double
value is a function of its parameter (unitsFor) and is not duplicated
here.  An atomdb value stores the token lines plus the precomputed
one-line form (value_as_string). -/
inductive PValue
  | dblV (value : DVal) (orig : Str)
  | intV (value : Int)
  | boolV (value : Bool)
  | strV (value : Str)
  | orientV (cishkl : Bool) (c1 c2 c3 l1 l2 l3 : DVal) (orig : Str)
  | vecV (x y z : DVal) (orig : Str)
  | atomdbV (value : List (List Str)) (vstr : Str)
deriving DecidableEq, Repr

/-- NCMATCFG_FORBIDDEN_CHARS: double quote, quote, pipe, angle brackets,
parentheses, braces, square brackets. -/
def forbiddenCfgChars : Str :=
  [Char.ofNat 34, Char.ofNat 39, '|', '>', '<', '(', ')',
   Char.ofNat 123, Char.ofNat 125, '[', ']']

/-- The characters equals-sign and semicolon, additionally banned inside
string-typed and atomdb values. -/
def eqSemiChars : Str := ['=', ';']

/-- ValBool::set_from_strrep: the accepted boolean representations. -/
def parseBoolRep (s : Str) : Option Bool :=
  if s = ("true".toList) ∨ s = ("1".toList) then some true
  else if s = ("false".toList) ∨ s = ("0".toList) then some false
  else none

/-- ValInt::set_from_strrep. -/
def setIntFromStr (s : Str) : Except ErrKind PValue :=
  match str2intZ s with
  | none => .error .badInput
  | some n => .ok (.intV n)

/-- ValBool::set_from_strrep. -/
def setBoolFromStr (s : Str) : Except ErrKind PValue :=
  match parseBoolRep s with
  | none => .error .badInput
  | some b => .ok (.boolV b)

/-- ValStr::set: reject non-printable-ASCII, forbidden characters, equals
sign and semicolon; otherwise store verbatim. -/
def setStrFromStr (s : Str) : Except ErrKind PValue :=
  if !(isSimpleASCII s false false) then .error .badInput
  else if containsAny s forbiddenCfgChars || containsAny s eqSemiChars then .error .badInput
  else .ok (.strV s)

/-- ValOrientDir::set_from_strrep on an already trimmed input; the trimmed
input is also the remembered origstrrep. -/
def orientCore (st : Str) : Except ErrKind PValue :=
  match splitCh '@' st with
  | [p0, c0, l0] =>
    if p0 ≠ [] then .error .badInput
    else
      match
        (if strStarts c0 ("crys:".toList) then some (false, c0.drop 5)
         else if strStarts c0 ("crys_hkl:".toList) then some (true, c0.drop 9)
         else none : Option (Bool × Str)) with
      | none => .error .badInput
      | some kc1 =>
        if !(strStarts l0 ("lab:".toList)) then .error .badInput
        else
          match splitCh ',' (trim kc1.2), splitCh ',' (trim (l0.drop 4)) with
          | [a1, a2, a3], [b1, b2, b3] =>
            match str2dblQ a1, str2dblQ a2, str2dblQ a3,
                  str2dblQ b1, str2dblQ b2, str2dblQ b3 with
            | some q1, some q2, some q3, some r1, some r2, some r3 =>
              .ok (.orientV kc1.1 (DVal.ofQ q1) (DVal.ofQ q2) (DVal.ofQ q3)
                    (DVal.ofQ r1) (DVal.ofQ r2) (DVal.ofQ r3) st)
            | _, _, _, _, _, _ => .error .badInput
          | _, _ => .error .badInput
  | _ => .error .badInput

/-- ValOrientDir::set_from_strrep. -/
def setOrientFromStr (s : Str) : Except ErrKind PValue :=
  orientCore (trim s)

/-- ValVector::set_from_strrep on an already trimmed input. -/
def vecCore (st : Str) : Except ErrKind PValue :=
  match splitCh ',' st with
  | [a1, a2, a3] =>
    match str2dblQ (trim a1), str2dblQ (trim a2), str2dblQ (trim a3) with
    | some q1, some q2, some q3 =>
      .ok (.vecV (DVal.ofQ q1) (DVal.ofQ q2) (DVal.ofQ q3) st)
    | _, _, _ => .error .badInput
  | _ => .error .badInput

/-- ValVector::set_from_strrep. -/
def setVecFromStr (s : Str) : Except ErrKind PValue :=
  vecCore (trim s)

/-- Replace each colon by a space (strreplace in ValAtomDB). -/
def strReplaceColon (s : Str) : Str :=
  s.map fun c => if c = ':' then ' ' else c

/-- ValAtomDB::set_from_strrep, tokenisation part: split the one-line form
on at-signs into lines, colons become spaces, whitespace-split each line. -/
def atomdbParseLines (s : Str) : List (List Str) :=
  (splitCh '@' s).map fun line => wsSplit (strReplaceColon line)

/-- The literal nodefaults. -/
def ndLit : Str := ("nodefaults".toList)

/-- Modelled from the spec: the v3-and-later element-name grammar (labels
matching letter (letter|digit)* up to a fixed length, here 64), since
NCMATData::validateElementNameByVersion is not under src. -/
def validateENv3core (s : Str) : Bool :=
  match s with
  | [] => false
  | c :: t => isAlphaAZ c && t.all (fun d => isAlphaAZ d || digitB d) && s.length ≤ 64

/-- Modelled from the spec: version-gated element-name validation
(NCMATData::validateElementNameByVersion is not under src).  v1 accepts the
standard one-or-two letter symbol shape, v2 additionally a leading isotope
digit run, v3 arbitrary labels of the v3 grammar. -/
def validateElementNameVer (v : Nat) (s : Str) : Bool :=
  if 3 ≤ v then validateENv3core s
  else
    let core := s.dropWhile digitB
    let digitsOK := v = 2 ∨ s.takeWhile digitB = []
    digitsOK &&
      match core with
      | [c] => upperB c
      | [c, d] => upperB c && lowerB d
      | _ => false

/-- Modelled from the spec: validateAtomDBLine (NCAtomUtils, not under src)
scoped to what this development needs: the first token is the lone literal
nodefaults, or a valid element name. -/
def validateAtomDBLineB (line : List Str) : Bool :=
  match line with
  | [] => false
  | w :: _ => (line.length = 1 && w = ndLit) || validateENv3core w

/-- The per-word character checks of ValAtomDB::set. -/
def atomdbWordOK (w : Str) : Bool :=
  isSimpleASCII w false false && !(containsAny w forbiddenCfgChars)
    && !(containsAny w eqSemiChars)

/-- ValAtomDB::set, processing lines with the running count of already
stored (non-empty) lines: empty lines are skipped, each word is checked,
each line validated, and a lone nodefaults is rejected unless it is the
first stored line. -/
def atomdbAux : Nat → List (List Str) → Except ErrKind (List (List Str))
  | _, [] => .ok []
  | i, line :: rest =>
    if line = [] then atomdbAux i rest
    else if !(line.all atomdbWordOK) then .error .badInput
    else if !(validateAtomDBLineB line) then .error .badInput
    else if line = [ndLit] ∧ 0 < i then .error .badInput
    else (atomdbAux (i + 1) rest).map (line :: ·)

/-- Join pieces with a separator (joinstr and the stream loops that emit a
separator between entries). -/
def joinSep (sep : Str) : List Str → Str
  | [] => []
  | [x] => x
  | x :: y :: rest => x ++ sep ++ joinSep sep (y :: rest)

/-- ValAtomDB::to_strrep_impl: words joined by colons, lines by at-signs. -/
def atomdbJoin (v : List (List Str)) : Str :=
  joinSep ['@'] (v.map (joinSep [':']))

/-- ValAtomDB::set on a list of token lines. -/
def atomdbSetLines (ls : List (List Str)) : Except ErrKind PValue :=
  (atomdbAux 0 ls).map fun v => .atomdbV v (atomdbJoin v)

/-- ValAtomDB::set_from_strrep. -/
def setAtomdbFromStr (s : Str) : Except ErrKind PValue :=
  atomdbSetLines (atomdbParseLines s)

/-- Dispatch of set_from_strrep over the value type of a parameter
(the switch in MatCfg::Impl::setValByStr), yielding the stored value. -/
def mkSetPValue (vt : VType) (ut : UnitType) (s : Str) : Except ErrKind PValue :=
  match vt with
  | .tDbl => (setDblFromStr ut s).map fun vo => .dblV vo.1 vo.2
  | .tInt => setIntFromStr s
  | .tBool => setBoolFromStr s
  | .tStr => setStrFromStr s
  | .tOrient => setOrientFromStr s
  | .tVec => setVecFromStr s
  | .tAtomDB => setAtomdbFromStr s

/-- The parameter table m_parlist: for each parameter, the stored value if
set. -/
abbrev Table := Param → Option PValue

/-- Store a value for a parameter. -/
def Table.set (t : Table) (p : Param) (v : PValue) : Table :=
  Function.update t p (some v)

/-- A fresh table with no parameter set. -/
def emptyTable : Table := fun _ => none

/-- MatCfg::Impl::strNameToParIdx: exact lookup of a parameter name (the
source uses lower_bound on the sorted name array plus an exact-match
check, which is exact lookup). -/
def strNameToParIdx (name : Str) : Option Param :=
  allParams.find? fun p => decide (parname p = name)

/-- The part of MatCfg::Impl::setValByStr after alias handling: name
lookup, the empty-value check (only string parameters accept an empty
value), and dispatch on the value type. -/
def setValByStrCore (t : Table) (name value : Str) : Except ErrKind Table :=
  match strNameToParIdx name with
  | none => .error .badInput
  | some p =>
    if value = [] ∧ partype p ≠ VType.tStr then .error .badInput
    else (mkSetPValue (partype p) (unitsFor p) value).map (t.set p)

/-- MatCfg::Impl::setValByStr, including the pseudo-parameters: bragg is an
alias of coh_elas; elas sets coh_elas and incoh_elas to the same boolean;
bkgd accepts only none or 0, disabling incoh_elas and setting inelas to
none. -/
def setValByStr (t : Table) (name value : Str) : Except ErrKind Table :=
  if name = ("bragg".toList) then setValByStrCore t ("coh_elas".toList) value
  else if name = ("elas".toList) then
    match parseBoolRep value with
    | none => .error .badInput
    | some b => .ok ((t.set .coh_elas (.boolV b)).set .incoh_elas (.boolV b))
  else if name = ("bkgd".toList) then
    if value = ("none".toList) ∨ value = ("0".toList) then
      .ok ((t.set .incoh_elas (.boolV false)).set .inelas (.strV ("none".toList)))
    else .error .badInput
  else setValByStrCore t name value

/-- One semicolon-separated part of MatCfg::applyStrCfg: trim, skip if
empty, reject a stray ignorefilecfg keyword, split into name and value on
the equals sign (exactly two parts, non-empty name), and set. -/
def processSeg (t : Table) (seg : Str) : Except ErrKind Table :=
  let sg := trim seg
  if sg = [] then .ok t
  else if sg = ("ignorefilecfg".toList) then .error .badInput
  else
    match splitCh '=' sg with
    | [k, v] =>
      if trim k = [] then .error .badInput
      else setValByStr t (trim k) (trim v)
    | _ => .error .badInput

/-- Left-to-right processing of the parts. -/
def processSegs (t : Table) : List Str → Except ErrKind Table
  | [] => .ok t
  | sg :: rest =>
    match processSeg t sg with
    | .error e => .error e
    | .ok t1 => processSegs t1 rest

/-- MatCfg::applyStrCfg: the ASCII and forbidden-character gates, then the
semicolon-separated parts in order (copy-on-write is a no-op at the level
of a single table and is modelled separately). -/
def applyStrCfg (t : Table) (s : Str) : Except ErrKind Table :=
  if !(isSimpleASCII s true true) then .error .badInput
  else if containsAny s forbiddenCfgChars then .error .badInput
  else processSegs t (splitCh ';' s)

/-- The to_strrep virtual: the textual form of a stored value.  Doubles
return the remembered original text unless the high-precision cache form is
requested (setprecision(16)); without a remembered text the default stream
precision 6 applies.  Orientations and vectors always use their remembered
text when present, else precision 17. -/
def pvalToStrrep (forcache : Bool) : PValue → Str
  | .dblV v o => if !forcache ∧ o ≠ [] then o else DVal.fmt (if forcache then 16 else 6) v
  | .intV n => intToStr n
  | .boolV b => if b then ("true".toList) else ("false".toList)
  | .strV s => s
  | .orientV k c1 c2 c3 l1 l2 l3 o =>
    if o ≠ [] then o
    else
      (if k then ("@crys_hkl:".toList) else ("@crys:".toList))
        ++ DVal.fmt 17 c1 ++ ',' :: DVal.fmt 17 c2 ++ ',' :: DVal.fmt 17 c3
        ++ ("@lab:".toList)
        ++ DVal.fmt 17 l1 ++ ',' :: DVal.fmt 17 l2 ++ ',' :: DVal.fmt 17 l3
  | .vecV x y z o =>
    if o ≠ [] then o
    else DVal.fmt 17 x ++ ',' :: DVal.fmt 17 y ++ ',' :: DVal.fmt 17 z
  | .atomdbV _ vstr => vstr

/-- MatCfg::toStrCfg without the datafile part: the set parameters in enum
(alphabetical) order as name=value, joined by semicolons. -/
def toStrCfg (t : Table) : Str :=
  joinSep [';']
    (allParams.filterMap fun p => (t p).map fun pv => parname p ++ '=' :: pvalToStrrep false pv)

/-- getVal for doubles with a code-level default. -/
def getDbl (t : Table) (p : Param) (dflt : DVal) : DVal :=
  match t p with
  | some (.dblV v _) => v
  | _ => dflt

/-- getVal for booleans with a code-level default. -/
def getBool (t : Table) (p : Param) (dflt : Bool) : Bool :=
  match t p with
  | some (.boolV b) => b
  | _ => dflt

/-- getVal for integers with a code-level default. -/
def getInt (t : Table) (p : Param) (dflt : Int) : Int :=
  match t p with
  | some (.intV n) => n
  | _ => dflt

/-- getVal for strings with a code-level default. -/
def getStr (t : Table) (p : Param) (dflt : Str) : Str :=
  match t p with
  | some (.strV s) => s
  | _ => dflt

/-- MatCfg::get_temp, default -1 (source-provided sentinel). -/
def get_temp (t : Table) : DVal := getDbl t .temp (DVal.ofQ (-1))

/-- MatCfg::get_dcutoff, default 0. -/
def get_dcutoff (t : Table) : DVal := getDbl t .dcutoff (DVal.ofQ 0)

/-- MatCfg::get_dcutoffup; none encodes the default kInfinity, which has no
finite representation in the value domain. -/
def get_dcutoffup (t : Table) : Option DVal :=
  match t .dcutoffup with
  | some (.dblV v _) => some v
  | _ => none

/-- MatCfg::get_packfact, default 1. -/
def get_packfact (t : Table) : DVal := getDbl t .packfact (DVal.ofQ 1)

/-- MatCfg::get_mos: no code default, MissingInfo when unset. -/
def get_mos (t : Table) : Except ErrKind DVal :=
  match t .mos with
  | some (.dblV v _) => .ok v
  | _ => .error .missingInfo

/-- MatCfg::get_mosprec, default 1e-3. -/
def get_mosprec (t : Table) : DVal := getDbl t .mosprec (DVal.ofQ (1/1000))

/-- MatCfg::get_sccutoff, default 0.4. -/
def get_sccutoff (t : Table) : DVal := getDbl t .sccutoff (DVal.ofQ (2/5))

/-- MatCfg::get_dirtol, default 1e-4. -/
def get_dirtol (t : Table) : DVal := getDbl t .dirtol (DVal.ofQ (1/10000))

/-- MatCfg::get_coh_elas, default true. -/
def get_coh_elas (t : Table) : Bool := getBool t .coh_elas true

/-- MatCfg::get_incoh_elas, default true. -/
def get_incoh_elas (t : Table) : Bool := getBool t .incoh_elas true

/-- MatCfg::get_inelas: default auto, and the sterile aliases none, 0,
sterile, false all read back as none. -/
def get_inelas (t : Table) : Str :=
  let ss := getStr t .inelas ("auto".toList)
  if ss = ("none".toList) ∨ ss = ("0".toList) ∨ ss = ("sterile".toList)
      ∨ ss = ("false".toList) then
    ("none".toList)
  else ss

/-- MatCfg::get_overridefileext, default empty. -/
def get_overridefileext (t : Table) : Str := getStr t .overridefileext []

/-- MatCfg::get_infofactory, default empty. -/
def get_infofactory (t : Table) : Str := getStr t .infofactory []

/-- MatCfg::get_scatfactory, default empty. -/
def get_scatfactory (t : Table) : Str := getStr t .scatfactory []

/-- MatCfg::get_absnfactory, default empty. -/
def get_absnfactory (t : Table) : Str := getStr t .absnfactory []

/-- MatCfg::get_lcmode, default 0. -/
def get_lcmode (t : Table) : Int := getInt t .lcmode 0

/-- MatCfg::get_vdoslux, default 3. -/
def get_vdoslux (t : Table) : Int := getInt t .vdoslux 3

/-- MatCfg::get_atomdb: the one-line form, empty when unset. -/
def get_atomdb (t : Table) : Str :=
  match t .atomdb with
  | some (.atomdbV _ vstr) => vstr
  | _ => []

/-- MatCfg::get_atomdb_parsed: the token lines, empty when unset. -/
def get_atomdb_parsed (t : Table) : List (List Str) :=
  match t .atomdb with
  | some (.atomdbV v _) => v
  | _ => []

/-- MatCfg::get_lcaxis: MissingInfo when unset. -/
def get_lcaxis (t : Table) : Except ErrKind (DVal × DVal × DVal) :=
  match t .lcaxis with
  | some (.vecV x y z _) => .ok (x, y, z)
  | _ => .error .missingInfo

/-- MatCfg::get_dir1: MissingInfo when unset. -/
def get_dir1 (t : Table) : Except ErrKind (Bool × (DVal × DVal × DVal) × (DVal × DVal × DVal)) :=
  match t .dir1 with
  | some (.orientV k c1 c2 c3 l1 l2 l3 _) => .ok (k, (c1, c2, c3), (l1, l2, l3))
  | _ => .error .missingInfo

/-- MatCfg::get_dir2: MissingInfo when unset. -/
def get_dir2 (t : Table) : Except ErrKind (Bool × (DVal × DVal × DVal) × (DVal × DVal × DVal)) :=
  match t .dir2 with
  | some (.orientV k c1 c2 c3 l1 l2 l3 _) => .ok (k, (c1, c2, c3), (l1, l2, l3))
  | _ => .error .missingInfo

/-- Lexicographic comparison of strings (std::string operator <=). -/
def strLexLe : Str → Str → Bool
  | [], _ => true
  | _ :: _, [] => false
  | a :: s, b :: t => if a = b then strLexLe s t else decide (a < b)

/-- Insertion into a sorted list. -/
def insSorted (x : Str) : List Str → List Str
  | [] => [x]
  | y :: t => if strLexLe x y then x :: y :: t else y :: insSorted x t

/-- Sort a list of strings (model of iterating a std::set in order). -/
def sortStrs (l : List Str) : List Str :=
  l.foldr insSorted []

/-- MatCfg::getCacheSignature: for each requested parameter name in set
(sorted, unique) order, name=value with the high-precision (forcache)
rendering, the placeholder for unset parameters, joined by semicolons;
unknown names raise BadInput through strNameToParIdx. -/
def getCacheSignature (t : Table) (pns : List Str) : Except ErrKind Str :=
  let names := (sortStrs pns).dedup
  let rec go : List Str → Except ErrKind (List Str)
    | [] => .ok []
    | n :: rest =>
      match strNameToParIdx n with
      | none => .error .badInput
      | some p =>
        let rep :=
          match t p with
          | some pv => pvalToStrrep true pv
          | none => ['<', '>']
        (go rest).map fun rs => (n ++ '=' :: rep) :: rs
  (go names).map (joinSep [';'])

/-- The temp clause of MatCfg::checkConsistency, line for line: throw
BadInput iff parval_temp != -1.0 and (parval_temp < 0.0 or
parval_temp > 1e5).  Temperature values of reachable configurations are
pure rationals, so the check is stated on the rational component. -/
def tempCheckRejects (tv : ℚ) : Bool :=
  decide (tv ≠ -1) && (decide (tv < 0) || decide (100000 < tv))

/-- MatCfg::checkConsistency scoped to its temp clause (the first check
performed), on the temperature read through get_temp. -/
def checkConsistencyTempPart (t : Table) : Except ErrKind Unit :=
  if tempCheckRejects (get_temp t).ra then .error .badInput else .ok ()

/-! ## Shared handles and copy-on-write (MatCfg::cow and the setters)

A MatCfg handle holds a reference-counted pointer to an Impl (the parameter
table).  The heap of Impl objects is modelled as a list of
(refcount, table) pairs; a handle is an index into it.  MatCfg::cow leaves
a uniquely owned Impl in place and otherwise clones it into a fresh Impl
with refcount 1, decrementing the refcount of the shared one. -/

/-- The heap of Impl objects: refcount and parameter table for each. -/
structure World where
  impls : List (Nat × Table)
deriving Inhabited

/-- The table a handle observes. -/
def World.tableOf (w : World) (h : Nat) : Option Table :=
  (w.impls[h]?).map (·.2)

/-- MatCfg::cow: nothing to do when the refcount is 1, else clone into a
fresh Impl (refcount 1), unref the old one, and repoint the handle. -/
def cow (w : World) (h : Nat) : World × Nat :=
  match w.impls[h]? with
  | none => (w, h)
  | some rt =>
    if rt.1 = 1 then (w, h)
    else (⟨(w.impls.set h (rt.1 - 1, rt.2)) ++ [(1, rt.2)]⟩, w.impls.length)

/-- Mutate the table of the Impl a handle points to (after cow). -/
def mutateAt (w : World) (h : Nat) (f : Table → Table) : World :=
  match w.impls[h]? with
  | none => w
  | some rt => ⟨w.impls.set h (rt.1, f rt.2)⟩

/-- A generic value setter through a handle: cow, then store. -/
def setParamW (w : World) (h : Nat) (p : Param) (v : PValue) : World × Nat :=
  let wh := cow w h
  (mutateAt wh.1 wh.2 (fun t => t.set p v), wh.2)

/-- MatCfg::set_temp through a handle: cow, then setVal of a numeric double
(which clears the remembered text). -/
def set_tempW (w : World) (h : Nat) (v : DVal) : World × Nat :=
  setParamW w h .temp (.dblV v [])

/-- MatCfg::applyStrCfg through a handle: the gates, then per part cow
followed by setValByStr on the owned table. -/
def processSegW (wh : World × Nat) (seg : Str) : Except ErrKind (World × Nat) :=
  let sg := trim seg
  if sg = [] then .ok wh
  else if sg = ("ignorefilecfg".toList) then .error .badInput
  else
    match splitCh '=' sg with
    | [k, v] =>
      if trim k = [] then .error .badInput
      else
        let wh1 := cow wh.1 wh.2
        match wh1.1.tableOf wh1.2 with
        | none => .error .logicError
        | some t =>
          match setValByStr t (trim k) (trim v) with
          | .error e => .error e
          | .ok t1 => .ok (mutateAt wh1.1 wh1.2 (fun _ => t1), wh1.2)
    | _ => .error .badInput

/-- Left-to-right processing of the parts through a handle. -/
def processSegsW (wh : World × Nat) : List Str → Except ErrKind (World × Nat)
  | [] => .ok wh
  | sg :: rest =>
    match processSegW wh sg with
    | .error e => .error e
    | .ok wh1 => processSegsW wh1 rest

/-- MatCfg::applyStrCfg through a handle. -/
def applyStrCfgW (w : World) (h : Nat) (s : Str) : Except ErrKind (World × Nat) :=
  if !(isSimpleASCII s true true) then .error .badInput
  else if containsAny s forbiddenCfgChars then .error .badInput
  else processSegsW (w, h) (splitCh ';' s)

/-! ## The NCMAT parser side (NCParseNCMAT.cc) -/

/-- NCMATParser::str2dbl_withfractions: a plain literal, or (from v2 on)
a single fraction p/q with non-empty sides and non-zero denominator,
evaluated exactly. -/
def str2dblWithFractions (version : Nat) (s : Str) : Except ErrKind ℚ :=
  if !(s.any fun c => c = '/') then
    match str2dblQ s with
    | none => .error .badInput
    | some q => .ok q
  else if version = 1 then .error .badInput
  else
    match splitCh '/' s with
    | [a, b] =>
      if a = [] ∨ b = [] then .error .badInput
      else
        match str2dblQ a, str2dblQ b with
        | some qa, some qb =>
          if qb = 0 then .error .badInput else .ok (qa / qb)
        | _, _ => .error .badInput
    | _ => .error .badInput

/-- One token of a @DYNINFO numeric vector: the value and its repeat count.
The token is cut at its first letter r when present; the part after the r
must be an integer of at least 2 (the compact repeat notation VrN), the
part before it a finite number; negative values are rejected unless the
field allows them. -/
def parseDynToken (allowneg : Bool) (tok : Str) : Except ErrKind (ℚ × Nat) :=
  let cut : Option Nat := tok.findIdx? fun c => c = 'r'
  let numStr := match cut with | some i => tok.take i | none => tok
  let rep : Except ErrKind Nat :=
    match cut with
    | none => .ok 1
    | some i =>
      match str2intZ (tok.drop (i + 1)) with
      | none => .error .badInput
      | some n => if n < 2 then .error .badInput else .ok n.toNat
  match rep with
  | .error e => .error e
  | .ok n =>
    match str2dblQ numStr with
    | none => .error .badInput
    | some v =>
      if !allowneg ∧ v < 0 then .error .badInput
      else .ok (v, n)

/-- The value-parsing loop of NCMATParser::handleSectionData_DYNINFO
(the part that parses numbers into a vector of DynInfo fields): each token
contributes its value repeated repeat-count times. -/
def parseDynTokens (allowneg : Bool) : List Str → Except ErrKind (List ℚ)
  | [] => .ok []
  | tok :: rest =>
    match parseDynToken allowneg tok with
    | .error e => .error e
    | .ok vn =>
      (parseDynTokens allowneg rest).map fun vs => List.replicate vn.2 vn.1 ++ vs

/-- The long-vector keywords of @DYNINFO that may continue across lines. -/
def dynLongFields : List Str :=
  [("sab".toList), ("sab_scaled".toList), ("sqw".toList), ("alphagrid".toList),
   ("betagrid".toList), ("qgrid".toList), ("omegagrid".toList), ("egrid".toList),
   ("vdos_egrid".toList), ("vdos_density".toList)]

/-- The @DYNINFO keywords rejected as not yet supported. -/
def dynRejectedFields : List Str :=
  [("sqw".toList), ("qgrid".toList), ("omegagrid".toList)]

/-- Whether a @DYNINFO field keyword allows negative entries
(betagrid and omegagrid only). -/
def dynAllowNeg (kw : Str) : Bool :=
  kw = ("betagrid".toList) || kw = ("omegagrid".toList)

/-- The branch of NCMATParser::handleSectionData_DYNINFO for a line whose
first token is a generic (non-reserved) field keyword: the keyword must not
repeat, must have at least one argument, the S(q,w)-family keywords are
rejected, and the remaining tokens are parsed as the field vector. -/
def dynFieldLine (seenFields : List Str) (kw : Str) (args : List Str) :
    Except ErrKind (List ℚ) :=
  if args = [] then .error .badInput
  else if seenFields.any (fun f => decide (f = kw)) then .error .badInput
  else if dynLongFields.any (fun f => decide (f = kw))
      ∧ dynRejectedFields.any (fun f => decide (f = kw)) then .error .badInput
  else parseDynTokens (dynAllowNeg kw) args

/-- The section names always registered in section2handler, plus the
version-gated ones (NCMATParser::parseFile, the section2handler setup). -/
def sectionNames (version : Nat) : List Str :=
  [("HEAD".toList), ("CELL".toList), ("ATOMPOSITIONS".toList),
   ("SPACEGROUP".toList), ("DEBYETEMPERATURE".toList)]
  ++ (if 2 ≤ version then [("DYNINFO".toList), ("DENSITY".toList)] else [])
  ++ (if 3 ≤ version then [("ATOMDB".toList), ("CUSTOM".toList)] else [])

/-- The section-marker handling of NCMATParser::parseFile for a line whose
single unindented token is the marker: the name after the at-sign must be
non-empty, repeated sections are rejected except @DYNINFO and custom
sections, and an unregistered name raises BadInput (with the version-gate
errors for @DYNINFO / @DENSITY under v1 and @ATOMDB / custom sections under
v < 3); a custom section needs a non-empty suffix after the CUSTOM_ part.
Returns the new section name plus the updated seen set.  Closing of the
previous section (which performs that section's own validation) happens
before this logic and is modelled separately by the section handlers. -/
def processSectionMarker (version : Nat) (seen : List Str) (tok : Str) :
    Except ErrKind (Str × List Str) :=
  let ns := tok.drop 1
  if ns = [] then .error .badInput
  else
    let isCustom := strStarts ns ("CUSTOM_".toList)
    let multiAllowed := isCustom || ns = ("DYNINFO".toList)
    if !multiAllowed ∧ seen.any (fun x => decide (x = ns)) then .error .badInput
    else
      let seen1 := if multiAllowed then seen else ns :: seen
      let lookupName := if isCustom then ("CUSTOM".toList) else ns
      if (sectionNames version).any fun x => decide (x = lookupName) then
        if isCustom ∧ ns.length ≤ 7 then .error .badInput
        else .ok (ns, seen1)
      else .error .badInput

/-- NCMATParser::handleSectionData_ATOMDB for a data line: the first token
undergoes element-name validation unless it is the literal nodefaults, and
the whole token line is stored verbatim (no position rule here). -/
def handleATOMDB (version : Nat) (stored : List (List Str)) (parts : List Str) :
    Except ErrKind (List (List Str)) :=
  match parts with
  | [] => .ok stored
  | w :: _ =>
    if w ≠ ndLit ∧ !(validateElementNameVer version w) then .error .badInput
    else .ok (stored ++ [parts])

/-- Modelled from the spec: the whole-record validation of the @ATOMDB
section (NCMATData::validate is not under src): a lone nodefaults line is
only legal as the first stored line of the section. -/
def validateAtomDBSection (stored : List (List Str)) : Except ErrKind Unit :=
  match stored with
  | [] => .ok ()
  | _ :: rest =>
    if rest.any (fun l => decide (l = [ndLit])) then .error .badInput else .ok ()

/-- NCMATParser::handleSectionData_ATOMPOSITIONS for a data line: validate
the element name of the first token (no nodefaults special case exists
here), require exactly three coordinates, parse each as a number or (from
v2) fraction, and append. -/
def handleATOMPOS (version : Nat) (stored : List (Str × (ℚ × ℚ × ℚ)))
    (parts : List Str) : Except ErrKind (List (Str × (ℚ × ℚ × ℚ))) :=
  match parts with
  | [] => .ok stored
  | w :: coords =>
    if !(validateElementNameVer version w) then .error .badInput
    else
      match coords with
      | [x, y, z] =>
        match str2dblWithFractions version x, str2dblWithFractions version y,
              str2dblWithFractions version z with
        | .ok qx, .ok qy, .ok qz => .ok (stored ++ [(w, (qx, qy, qz))])
        | _, _, _ => .error .badInput
      | _ => .error .badInput

/-! ## Embedded configuration extraction (MatCfg::Impl::extractFileCfgStr
and the MatCfg constructor tail) -/

/-- The marker NCRYSTALMATCFG. -/
def matcfgPat : Str := ("NCRYSTALMATCFG".toList)

/-- The loop body of MatCfg::Impl::extractFileCfgStr over the input lines,
carrying the payload found so far: a second line with the marker, a marker
not followed by an opening bracket, two markers on one line, or a missing
closing bracket are BadInput; an empty payload is recorded as a single
space so that later occurrences are still detected. -/
def extractFileCfgAux : Str → List Str → Except ErrKind Str
  | res, [] => .ok (trim res)
  | res, line :: rest =>
    match findSub matcfgPat line with
    | none => extractFileCfgAux res rest
    | some pos =>
      if res ≠ [] then .error .badInput
      else
        let line1 := line.drop (pos + matcfgPat.length)
        if line1 = [] ∨ line1.head? ≠ some '[' then .error .badInput
        else if (findSub matcfgPat line1).isSome then .error .badInput
        else
          let line2 := line1.drop 1
          match findSub [']'] line2 with
          | none => .error .badInput
          | some cpos =>
            let payload := line2.take cpos
            extractFileCfgAux (if payload = [] then [' '] else payload) rest

/-- MatCfg::Impl::extractFileCfgStr over the lines of the input. -/
def extractFileCfgStr (lines : List Str) : Except ErrKind Str :=
  extractFileCfgAux [] lines

/-- The tail of the MatCfg constructor on the path where ignorefilecfg is
not specified: extract the embedded configuration from the input lines,
apply it when non-empty, then apply the user-supplied parameter string when
non-empty. -/
def matCfgBuild (fileLines : List Str) (extracfg : Str) : Except ErrKind Table :=
  match extractFileCfgStr fileLines with
  | .error e => .error e
  | .ok fstr =>
    match (if fstr ≠ [] then applyStrCfg emptyTable fstr else .ok emptyTable) with
    | .error e => .error e
    | .ok t1 => if extracfg ≠ [] then applyStrCfg t1 extracfg else .ok t1

/-! ## Lemmas about the string helpers -/

theorem headAppend {α : Type} (a b : List α) (h : a ≠ []) :
    (a ++ b).head? = a.head? := by
  cases a with
  | nil => exact absurd rfl h
  | cons x t => rfl

theorem lastAppend {α : Type} (a b : List α) (h : b ≠ []) :
    (a ++ b).getLast? = b.getLast? := by
  induction a with
  | nil => rfl
  | cons x t ih =>
    rw [List.cons_append, List.getLast?_cons, ih]
    rcases t with _ | _ <;> rcases b with _ | _ <;> simp_all [List.getLast?_cons]

theorem takeLenAppend {α : Type} (a b : List α) : (a ++ b).take a.length = a := by
  induction a with
  | nil => rfl
  | cons x t ih => simp [List.take, ih]

theorem trimLeft_head (s : Str) (c : Char) (h : (trimLeft s).head? = some c) :
    wsChar c = false := by
  induction s with
  | nil => simp [trimLeft] at h
  | cons a t ih =>
    by_cases hw : wsChar a
    · rw [trimLeft, if_pos hw] at h
      exact ih h
    · rw [trimLeft, if_neg hw] at h
      simp only [List.head?] at h
      cases h
      simpa using hw

theorem trimLeft_eq_self (s : Str)
    (h : ∀ c, s.head? = some c → wsChar c = false) : trimLeft s = s := by
  cases s with
  | nil => rfl
  | cons a t =>
    have := h a rfl
    rw [trimLeft, if_neg (by simp [this])]

theorem mem_trimLeft (s : Str) (c : Char) (h : c ∈ trimLeft s) : c ∈ s := by
  induction s with
  | nil => simpa [trimLeft] using h
  | cons a t ih =>
    by_cases hw : wsChar a
    · rw [trimLeft, if_pos hw] at h
      exact List.mem_cons_of_mem a (ih h)
    · rwa [trimLeft, if_neg hw] at h

theorem getLast?_cons_ne {α : Type} (a : α) (t : List α) (h : t ≠ []) :
    (a :: t).getLast? = t.getLast? := by
  cases t with
  | nil => exact absurd rfl h
  | cons x r => rw [List.getLast?_cons_cons]

theorem trimRight_last (s : Str) : ∀ c, (trimRight s).getLast? = some c → wsChar c = false := by
  induction s with
  | nil => intro c h; simp [trimRight] at h
  | cons a t ih =>
    intro c h
    rw [trimRight] at h
    by_cases he : trimRight t = [] ∧ wsChar a = true
    · rw [if_pos he] at h; simp at h
    · rw [if_neg he] at h
      by_cases ht : trimRight t = []
      · rw [ht] at h
        simp at h
        rw [← h]
        have hna : ¬ wsChar a = true := fun hw => he ⟨ht, hw⟩
        simpa using hna
      · rw [getLast?_cons_ne a _ ht] at h
        exact ih c h

theorem trimRight_eq_self (s : Str) :
    (∀ c, s.getLast? = some c → wsChar c = false) → trimRight s = s := by
  induction s with
  | nil => intro _; rfl
  | cons a t ih =>
    intro h
    by_cases ht : t = []
    · subst ht
      have ha := h a (by simp)
      rw [trimRight]
      simp [trimRight, ha]
    · have htt : trimRight t = t :=
        ih (fun c hc => h c (by rw [getLast?_cons_ne a t ht]; exact hc))
      rw [trimRight, htt, if_neg (by simp [ht])]

theorem head_trimRight (s : Str) (h : trimRight s ≠ []) :
    (trimRight s).head? = s.head? := by
  cases s with
  | nil => rfl
  | cons a t =>
    rw [trimRight] at h ⊢
    by_cases he : trimRight t = [] ∧ wsChar a = true
    · exact absurd (if_pos he) h
    · rw [if_neg he]
      simp

theorem mem_trimRight (s : Str) (c : Char) : c ∈ trimRight s → c ∈ s := by
  induction s with
  | nil => intro h; simpa [trimRight] using h
  | cons a t ih =>
    intro h
    rw [trimRight] at h
    by_cases he : trimRight t = [] ∧ wsChar a = true
    · rw [if_pos he] at h; simp at h
    · rw [if_neg he] at h
      rcases List.mem_cons.mp h with h | h
      · simp [h]
      · exact List.mem_cons_of_mem a (ih h)

theorem trim_head (s : Str) (c : Char) (h : (trim s).head? = some c) :
    wsChar c = false := by
  rw [trim] at h
  have hne : trimRight (trimLeft s) ≠ [] := by
    intro he; rw [he] at h; simp at h
  rw [head_trimRight _ hne] at h
  exact trimLeft_head s c h

theorem trim_last (s : Str) (c : Char) (h : (trim s).getLast? = some c) :
    wsChar c = false :=
  trimRight_last _ c h

theorem trim_eq_self (s : Str)
    (h1 : ∀ c, s.head? = some c → wsChar c = false)
    (h2 : ∀ c, s.getLast? = some c → wsChar c = false) : trim s = s := by
  rw [trim, trimLeft_eq_self s h1, trimRight_eq_self s h2]

theorem trim_idem (s : Str) : trim (trim s) = trim s :=
  trim_eq_self _ (trim_head s) (trim_last s)

theorem mem_trim (s : Str) (c : Char) (h : c ∈ trim s) : c ∈ s := by
  rw [trim] at h
  exact mem_trimLeft s c (mem_trimRight (trimLeft s) c h)

theorem getLast?_mem' {α : Type} (l : List α) (c : α) : l.getLast? = some c → c ∈ l := by
  induction l with
  | nil => intro h; simp at h
  | cons a t ih =>
    intro h
    by_cases ht : t = []
    · subst ht; simp at h; simp [h]
    · rw [getLast?_cons_ne a t ht] at h
      exact List.mem_cons_of_mem a (ih h)

theorem head?_mem' {α : Type} (l : List α) (c : α) (h : l.head? = some c) : c ∈ l := by
  cases l with
  | nil => simp at h
  | cons a t => simp at h; simp [h]

theorem trim_eq_self_of_all (s : Str) (h : ∀ c ∈ s, wsChar c = false) :
    trim s = s :=
  trim_eq_self s (fun c hc => h c (head?_mem' s c hc))
    (fun c hc => h c (getLast?_mem' s c hc))

theorem splitP_ne_nil (p : Char → Bool) (s : Str) : splitP p s ≠ [] := by
  induction s with
  | nil => simp [splitP]
  | cons a t ih =>
    rw [splitP]
    by_cases hp : p a = true
    · simp [hp]
    · simp only [hp]
      rcases h : splitP p t with _ | _
      · exact absurd h ih
      · simp

theorem splitP_sepFree (p : Char → Bool) (s : Str) :
    ∀ x ∈ splitP p s, ∀ c ∈ x, p c = false ∧ c ∈ s := by
  induction s with
  | nil =>
    intro x hx c hc
    simp [splitP] at hx
    subst hx
    simp at hc
  | cons a t ih =>
    intro x hx c hc
    rw [splitP] at hx
    by_cases hp : p a = true
    · rw [if_pos hp] at hx
      rcases List.mem_cons.mp hx with hx | hx
      · subst hx; simp at hc
      · obtain ⟨h1, h2⟩ := ih x hx c hc
        exact ⟨h1, List.mem_cons_of_mem a h2⟩
    · rw [if_neg hp] at hx
      rcases hs : splitP p t with _ | ⟨h0, rt⟩
      · exact absurd hs (splitP_ne_nil p t)
      · rw [hs] at hx
        rcases List.mem_cons.mp hx with hx | hx
        · subst hx
          rcases List.mem_cons.mp hc with hc | hc
          · subst hc
            exact ⟨by simpa using hp, by simp⟩
          · obtain ⟨h1, h2⟩ := ih h0 (by rw [hs]; exact List.mem_cons_self h0 rt) c hc
            exact ⟨h1, List.mem_cons_of_mem a h2⟩
        · obtain ⟨h1, h2⟩ := ih x (by rw [hs]; exact List.mem_cons_of_mem h0 hx) c hc
          exact ⟨h1, List.mem_cons_of_mem a h2⟩

theorem splitP_single (p : Char → Bool) (s : Str)
    (h : ∀ c ∈ s, p c = false) : splitP p s = [s] := by
  induction s with
  | nil => rfl
  | cons a t ih =>
    rw [splitP]
    have ha : ¬ p a = true := by simp [h a (by simp)]
    rw [if_neg ha, ih (fun c hc => h c (List.mem_cons_of_mem a hc))]

theorem splitP_append_sep (p : Char → Bool) (a y : Str) (c0 : Char)
    (ha : ∀ c ∈ a, p c = false) (hc : p c0 = true) :
    splitP p (a ++ c0 :: y) = a :: splitP p y := by
  induction a with
  | nil =>
    rw [List.nil_append, splitP, if_pos hc]
  | cons x t ih =>
    have hx : ¬ p x = true := by simp [ha x (by simp)]
    rw [List.cons_append, splitP, if_neg hx,
      ih (fun c hcm => ha c (List.mem_cons_of_mem x hcm))]

theorem joinSep_chars (sep : Str) (l : List Str) (c : Char)
    (h : c ∈ joinSep sep l) : c ∈ sep ∨ ∃ x ∈ l, c ∈ x := by
  induction l with
  | nil => simp [joinSep] at h
  | cons x t ih =>
    rcases t with _ | ⟨y, rest⟩
    · rw [joinSep] at h
      right; exact ⟨x, by simp, h⟩
    · rw [joinSep] at h
      rw [List.append_assoc] at h
      rcases List.mem_append.mp h with h | h
      · right; exact ⟨x, by simp, h⟩
      · rcases List.mem_append.mp h with h | h
        · left; exact h
        · rcases ih h with h1 | ⟨z, hz, hcz⟩
          · left; exact h1
          · right; exact ⟨z, List.mem_cons_of_mem x hz, hcz⟩

theorem splitP_joinSep (p : Char → Bool) (c0 : Char) (l : List Str)
    (hc : p c0 = true) (hl : l ≠ [])
    (h : ∀ x ∈ l, ∀ c ∈ x, p c = false) :
    splitP p (joinSep [c0] l) = l := by
  induction l with
  | nil => exact absurd rfl hl
  | cons x t ih =>
    rcases t with _ | ⟨y, rest⟩
    · rw [joinSep]
      exact splitP_single p x (h x (by simp))
    · rw [joinSep]
      have hre : x ++ [c0] ++ joinSep [c0] (y :: rest)
          = x ++ c0 :: joinSep [c0] (y :: rest) := by simp
      rw [hre, splitP_append_sep p x _ c0 (h x (by simp)) hc,
        ih (by simp) (fun z hz => h z (List.mem_cons_of_mem x hz))]

theorem takeWhile_append_all (p : Char → Bool) (a b : Str)
    (h : ∀ c ∈ a, p c = true) : (a ++ b).takeWhile p = a ++ b.takeWhile p := by
  induction a with
  | nil => rfl
  | cons x t ih =>
    have hx := h x (by simp)
    simp only [List.cons_append, List.takeWhile_cons, hx, if_true]
    rw [ih (fun c hc => h c (List.mem_cons_of_mem x hc))]

theorem takeWhile_nil_of_head (p : Char → Bool) (b : Str) (c : Char)
    (hh : b.head? = some c) (hp : p c = false) : b.takeWhile p = [] := by
  cases b with
  | nil => rfl
  | cons x t =>
    simp only [List.head?] at hh
    cases hh
    rw [List.takeWhile_cons]
    simp [hp]

/-! ## Lemmas about the numeric literal parsers and printers -/

/-- The characters that can occur in a parsed decimal literal. -/
def numChar (c : Char) : Bool :=
  digitB c || c = '+' || c = '-' || c = '.' || c = 'e' || c = 'E'

theorem takeDigits_recomb (s : Str) : (takeDigits s).1 ++ (takeDigits s).2 = s := by
  induction s with
  | nil => rfl
  | cons c t ih =>
    rw [takeDigits]
    by_cases hd : digitB c = true
    · simp only [hd, if_true]
      simpa using ih
    · simp [hd]

theorem takeDigits_digits (s : Str) : ∀ c ∈ (takeDigits s).1, digitB c = true := by
  induction s with
  | nil => intro c hc; simp [takeDigits] at hc
  | cons a t ih =>
    intro c hc
    rw [takeDigits] at hc
    by_cases hd : digitB a = true
    · simp only [hd, if_true] at hc
      rcases List.mem_cons.mp hc with h | h
      · rw [h]; exact hd
      · exact ih c h
    · simp [hd] at hc

theorem parseSign_shape (s : Str) :
    s = (parseSign s).2 ∨ ∃ c0, (c0 = '-' ∨ c0 = '+') ∧ s = c0 :: (parseSign s).2 := by
  cases s with
  | nil => left; rfl
  | cons c t =>
    by_cases h1 : c = '-'
    · right
      refine ⟨c, Or.inl h1, ?_⟩
      rw [parseSign]
      simp [h1]
    · by_cases h2 : c = '+'
      · right
        refine ⟨c, Or.inr h2, ?_⟩
        rw [parseSign]
        simp [h1, h2]
      · left
        rw [parseSign]
        simp [h1, h2]

theorem digitB_numChar (c : Char) (h : digitB c = true) : numChar c = true := by
  simp [numChar, h]

theorem wsChar_of_numChar (c : Char) (h : numChar c = true) : wsChar c = false := by
  cases hw : wsChar c
  · rfl
  · exfalso
    rw [wsChar] at hw
    simp only [Bool.or_eq_true, decide_eq_true_eq] at hw
    rw [numChar] at h
    simp only [Bool.or_eq_true, decide_eq_true_eq] at h
    rcases hw with ((hw | hw) | hw) | hw <;> subst hw <;> revert h <;> decide

theorem digitB_not_alpha (c : Char) (h : digitB c = true) : isAlphaAZ c = false := by
  rw [digitB] at h
  simp only [Bool.and_eq_true, decide_eq_true_eq] at h
  cases ha : isAlphaAZ c
  · rfl
  · exfalso
    rw [isAlphaAZ] at ha
    simp only [Bool.or_eq_true, Bool.and_eq_true, decide_eq_true_eq] at ha
    omega

theorem exists_getLast {α : Type} (l : List α) (h : l ≠ []) :
    ∃ c, l.getLast? = some c ∧ c ∈ l := by
  induction l with
  | nil => exact absurd rfl h
  | cons a t ih =>
    by_cases ht : t = []
    · subst ht
      exact ⟨a, by simp, by simp⟩
    · obtain ⟨c, hc, hm⟩ := ih ht
      exact ⟨c, by rw [getLast?_cons_ne a t ht]; exact hc, List.mem_cons_of_mem a hm⟩

theorem parseExpTail_shape (t : Str) (v : Int) (h : parseExpTail t = some v) :
    ∃ esgn ed, t = esgn ++ ed ∧ (esgn = [] ∨ esgn = ['-'] ∨ esgn = ['+'])
      ∧ ed ≠ [] ∧ ∀ c ∈ ed, digitB c = true := by
  rw [parseExpTail] at h
  rcases hps : parseSign t with ⟨n, t1⟩
  rw [hps] at h
  dsimp only at h
  rcases htd : takeDigits t1 with ⟨ed, er⟩
  rw [htd] at h
  dsimp only at h
  by_cases hc : ed = [] ∨ er ≠ []
  · simp [hc] at h
  · push_neg at hc
    have hrec : ed ++ er = t1 := by
      have := takeDigits_recomb t1
      rwa [htd] at this
    have hdd : ∀ c ∈ ed, digitB c = true := by
      have := takeDigits_digits t1
      rwa [htd] at this
    have ht1 : t1 = ed := by rw [← hrec, hc.2, List.append_nil]
    rcases parseSign_shape t with hsh | ⟨c0, hc0, hsh⟩ <;> rw [hps] at hsh <;>
      dsimp only at hsh
    · exact ⟨[], ed, by rw [hsh, ht1]; rfl, Or.inl rfl, hc.1, hdd⟩
    · rcases hc0 with h0 | h0 <;> subst h0
      · exact ⟨['-'], ed, by rw [hsh, ht1]; rfl, Or.inr (Or.inl rfl), hc.1, hdd⟩
      · exact ⟨['+'], ed, by rw [hsh, ht1]; rfl, Or.inr (Or.inr rfl), hc.1, hdd⟩

theorem expTail_ok (s3 : Str)
    (hee : s3.head? = some 'e' ∨ s3.head? = some 'E')
    (ex : Int) (hpe : parseExpTail s3.tail = some ex) :
    ∃ ec esgn ed, s3 = ec :: (esgn ++ ed) ∧ (ec = 'e' ∨ ec = 'E')
      ∧ (esgn = [] ∨ esgn = ['-'] ∨ esgn = ['+'])
      ∧ ed ≠ [] ∧ ∀ c ∈ ed, digitB c = true := by
  obtain ⟨ec, t3, h31⟩ : ∃ ec t3, s3 = ec :: t3 := by
    cases s3 with
    | nil => simp at hee
    | cons a b => exact ⟨a, b, rfl⟩
  subst h31
  obtain ⟨esgn, ed, heq, hshape, hne, hd⟩ :=
    parseExpTail_shape t3 ex (by simpa using hpe)
  refine ⟨ec, esgn, ed, by rw [← heq], ?_, hshape, hne, hd⟩
  rcases hee with he | he <;> simp at he
  · exact Or.inl he
  · exact Or.inr he

/-- Structure of a successfully parsed decimal literal: optional sign,
digit run, optional dot plus digit run, optional exponent group. -/
theorem str2dblQ_decomp (s : Str) (q : ℚ) (h : str2dblQ s = some q) :
    ∃ sgn ip dotfp et,
      s = sgn ++ ip ++ dotfp ++ et
      ∧ (sgn = [] ∨ sgn = ['-'] ∨ sgn = ['+'])
      ∧ (∀ c ∈ ip, digitB c = true)
      ∧ (dotfp = [] ∨ ∃ fp, dotfp = '.' :: fp ∧ ∀ c ∈ fp, digitB c = true)
      ∧ ip ++ dotfp ≠ []
      ∧ (et = [] ∨ ∃ ec esgn ed, et = ec :: (esgn ++ ed) ∧ (ec = 'e' ∨ ec = 'E')
          ∧ (esgn = [] ∨ esgn = ['-'] ∨ esgn = ['+'])
          ∧ ed ≠ [] ∧ ∀ c ∈ ed, digitB c = true) := by
  rw [str2dblQ] at h
  rcases hps : parseSign s with ⟨neg, s1⟩
  rw [hps] at h
  dsimp only at h
  rcases hip : takeDigits s1 with ⟨ip, s2⟩
  rw [hip] at h
  dsimp only at h
  have hs1 : ip ++ s2 = s1 := by
    have := takeDigits_recomb s1
    rwa [hip] at this
  have hipd : ∀ c ∈ ip, digitB c = true := by
    have := takeDigits_digits s1
    rwa [hip] at this
  have hsgn : ∃ sgn, (sgn = [] ∨ sgn = ['-'] ∨ sgn = ['+']) ∧ s = sgn ++ s1 := by
    rcases parseSign_shape s with hsh | ⟨c0, hc0, hsh⟩ <;> rw [hps] at hsh <;>
      dsimp only at hsh
    · exact ⟨[], Or.inl rfl, by rw [hsh]; rfl⟩
    · rcases hc0 with h0 | h0 <;> subst h0
      · exact ⟨['-'], Or.inr (Or.inl rfl), by rw [hsh]; rfl⟩
      · exact ⟨['+'], Or.inr (Or.inr rfl), by rw [hsh]; rfl⟩
  obtain ⟨sgn, hsgnshape, hsgneq⟩ := hsgn
  by_cases hdot : s2.head? = some '.'
  · rw [if_pos hdot] at h
    obtain ⟨t2, hs2⟩ : ∃ t2, s2 = '.' :: t2 := by
      cases s2 with
      | nil => simp at hdot
      | cons a b =>
        simp at hdot
        exact ⟨b, by rw [hdot]⟩
    rcases hfp : takeDigits s2.tail with ⟨fp, s3⟩
    rw [hfp] at h
    dsimp only at h
    have ht2 : fp ++ s3 = s2.tail := by
      have := takeDigits_recomb s2.tail
      rwa [hfp] at this
    have hfpd : ∀ c ∈ fp, digitB c = true := by
      have := takeDigits_digits s2.tail
      rwa [hfp] at this
    by_cases hem : ip = [] ∧ fp = []
    · rw [if_pos hem] at h
      exact absurd h (by simp)
    · rw [if_neg hem] at h
      refine ⟨sgn, ip, '.' :: fp, s3, ?_, hsgnshape, hipd,
        Or.inr ⟨fp, rfl, hfpd⟩, by simp, ?_⟩
      · have ht2q : t2 = fp ++ s3 := by
          rw [hs2] at ht2
          exact ht2.symm
        rw [hsgneq, ← hs1, hs2, ht2q]
        simp
      · by_cases h3 : s3 = []
        · exact Or.inl h3
        · rw [if_neg h3] at h
          by_cases hee : s3.head? = some 'e' ∨ s3.head? = some 'E'
          · rw [if_pos hee] at h
            rcases hpe : parseExpTail s3.tail with _ | ex
            · rw [hpe] at h
              exact absurd h (by simp)
            · exact Or.inr (expTail_ok s3 hee ex hpe)
          · rw [if_neg hee] at h
            exact absurd h (by simp)
  · rw [if_neg hdot] at h
    dsimp only at h
    by_cases hipe : ip = []
    · rw [if_pos ⟨hipe, rfl⟩] at h
      exact absurd h (by simp)
    · rw [if_neg (by simp [hipe])] at h
      refine ⟨sgn, ip, [], s2, ?_, hsgnshape, hipd, Or.inl rfl,
        by simp [hipe], ?_⟩
      · rw [hsgneq, ← hs1]
        simp
      · by_cases h3 : s2 = []
        · exact Or.inl h3
        · rw [if_neg h3] at h
          by_cases hee : s2.head? = some 'e' ∨ s2.head? = some 'E'
          · rw [if_pos hee] at h
            rcases hpe : parseExpTail s2.tail with _ | ex
            · rw [hpe] at h
              exact absurd h (by simp)
            · exact Or.inr (expTail_ok s2 hee ex hpe)
          · rw [if_neg hee] at h
            exact absurd h (by simp)

theorem str2dblQ_chars (s : Str) (q : ℚ) (h : str2dblQ s = some q) :
    ∀ c ∈ s, numChar c = true := by
  obtain ⟨sgn, ip, dotfp, et, heq, hsgn, hip, hdot, _, het⟩ := str2dblQ_decomp s q h
  intro c hc
  rw [heq] at hc
  simp only [List.mem_append] at hc
  rcases hc with ((hc | hc) | hc) | hc
  · rcases hsgn with h0 | h0 | h0 <;> rw [h0] at hc <;> simp at hc <;> rw [hc] <;> decide
  · exact digitB_numChar c (hip c hc)
  · rcases hdot with h0 | ⟨fp, h0, hfp⟩
    · rw [h0] at hc
      simp at hc
    · rw [h0] at hc
      rcases List.mem_cons.mp hc with hc | hc
      · rw [hc]; decide
      · exact digitB_numChar c (hfp c hc)
  · rcases het with h0 | ⟨ec, esgn, ed, h0, hec, hesgn, _, hed⟩
    · rw [h0] at hc
      simp at hc
    · rw [h0] at hc
      rcases List.mem_cons.mp hc with hc | hc
      · rcases hec with h1 | h1 <;> rw [hc, h1] <;> decide
      · rcases List.mem_append.mp hc with hc | hc
        · rcases hesgn with h1 | h1 | h1 <;> rw [h1] at hc <;> simp at hc <;>
            rw [hc] <;> decide
        · exact digitB_numChar c (hed c hc)

theorem str2dblQ_last (s : Str) (q : ℚ) (h : str2dblQ s = some q) :
    ∃ cl, s.getLast? = some cl ∧ (digitB cl = true ∨ cl = '.') := by
  obtain ⟨sgn, ip, dotfp, et, heq, _, hip, hdot, hmant, het⟩ := str2dblQ_decomp s q h
  rcases het with h0 | ⟨ec, esgn, ed, h0, _, _, hedne, hed⟩
  · subst h0
    rcases hdot with h1 | ⟨fp, h1, hfp⟩
    · subst h1
      have hipne : ip ≠ [] := by simpa using hmant
      obtain ⟨cl, hcl, hclm⟩ := exists_getLast ip hipne
      refine ⟨cl, ?_, Or.inl (hip cl hclm)⟩
      rw [heq]
      simp only [List.append_nil]
      rw [lastAppend sgn ip hipne, hcl]
    · subst h1
      by_cases hfpe : fp = []
      · subst hfpe
        refine ⟨'.', ?_, Or.inr rfl⟩
        rw [heq]
        simp only [List.append_nil]
        rw [List.append_assoc, lastAppend sgn _ (by simp), lastAppend ip _ (by simp)]
        rfl
      · obtain ⟨cl, hcl, hclm⟩ := exists_getLast fp hfpe
        refine ⟨cl, ?_, Or.inl (hfp cl hclm)⟩
        rw [heq]
        simp only [List.append_nil]
        rw [List.append_assoc, lastAppend sgn _ (by simp), lastAppend ip _ (by simp),
          getLast?_cons_ne _ _ hfpe, hcl]
  · obtain ⟨cl, hcl, hclm⟩ := exists_getLast ed hedne
    refine ⟨cl, ?_, Or.inl (hed cl hclm)⟩
    rw [heq, h0]
    rw [List.append_assoc, List.append_assoc,
      lastAppend sgn _ (by simp), lastAppend ip _ (by simp),
      lastAppend dotfp _ (by simp), getLast?_cons_ne _ _ (by simp [hedne]),
      lastAppend esgn _ hedne, hcl]

theorem str2dblQ_ne_nil (s : Str) (q : ℚ) (h : str2dblQ s = some q) : s ≠ [] := by
  obtain ⟨cl, hcl, _⟩ := str2dblQ_last s q h
  intro he
  rw [he] at hcl
  simp at hcl

theorem str2dblQ_trim (s : Str) (q : ℚ) (h : str2dblQ s = some q) : trim s = s :=
  trim_eq_self_of_all s fun c hc => wsChar_of_numChar c (str2dblQ_chars s q h c hc)

theorem str2dblQ_last_not_alpha (s : Str) (q : ℚ) (h : str2dblQ s = some q) :
    ∃ cl, s.getLast? = some cl ∧ isAlphaAZ cl = false := by
  obtain ⟨cl, hcl, hd⟩ := str2dblQ_last s q h
  refine ⟨cl, hcl, ?_⟩
  rcases hd with hd | hd
  · exact digitB_not_alpha cl hd
  · rw [hd]
    decide

theorem digit_char_ok (m : Nat) (h : m < 10) : digitB (Char.ofNat (48 + m)) = true := by
  interval_cases m <;> decide

theorem digit_char_val (m : Nat) (h : m < 10) : (Char.ofNat (48 + m)).toNat = 48 + m := by
  interval_cases m <;> decide

theorem natToStrAux_digits : ∀ (fuel n : Nat), n < fuel →
    ∀ c ∈ natToStrAux fuel n, digitB c = true := by
  intro fuel
  induction fuel with
  | zero => intro n h; omega
  | succ f ih =>
    intro n h c hc
    rw [natToStrAux] at hc
    by_cases h10 : n < 10
    · rw [if_pos h10] at hc
      simp at hc
      rw [hc]
      exact digit_char_ok n h10
    · rw [if_neg h10] at hc
      rcases List.mem_append.mp hc with hc | hc
      · have hd : n / 10 < n := Nat.div_lt_self (by omega) (by omega)
        exact ih (n / 10) (by omega) c hc
      · simp at hc
        rw [hc]
        exact digit_char_ok (n % 10) (Nat.mod_lt _ (by omega))

theorem natToStr_digits (n : Nat) : ∀ c ∈ natToStr n, digitB c = true :=
  natToStrAux_digits (n + 1) n (by omega)

theorem natToStrAux_ne_nil (fuel n : Nat) (h : n < fuel) : natToStrAux fuel n ≠ [] := by
  cases fuel with
  | zero => omega
  | succ f =>
    rw [natToStrAux]
    by_cases h10 : n < 10
    · rw [if_pos h10]; simp
    · rw [if_neg h10]; simp

theorem natToStr_ne_nil (n : Nat) : natToStr n ≠ [] :=
  natToStrAux_ne_nil (n + 1) n (by omega)

theorem digitsToNat_append_digit (a : Str) (c : Char) :
    digitsToNat (a ++ [c]) = 10 * digitsToNat a + (c.toNat - 48) := by
  rw [digitsToNat, List.foldl_append]
  rfl

theorem digitsToNat_natToStrAux : ∀ (fuel n : Nat), n < fuel →
    digitsToNat (natToStrAux fuel n) = n := by
  intro fuel
  induction fuel with
  | zero => intro n h; omega
  | succ f ih =>
    intro n h
    rw [natToStrAux]
    by_cases h10 : n < 10
    · rw [if_pos h10]
      show digitsToNat [Char.ofNat (48 + n)] = n
      rw [show [Char.ofNat (48 + n)] = [] ++ [Char.ofNat (48 + n)] from rfl,
        digitsToNat_append_digit, digit_char_val n h10]
      show 10 * digitsToNat [] + (48 + n - 48) = n
      rw [show digitsToNat [] = 0 from rfl]
      omega
    · have hd : n / 10 < n := Nat.div_lt_self (by omega) (by omega)
      rw [if_neg h10, digitsToNat_append_digit,
        ih (n / 10) (by omega),
        digit_char_val (n % 10) (Nat.mod_lt _ (by omega))]
      omega

theorem digitsToNat_natToStr (n : Nat) : digitsToNat (natToStr n) = n :=
  digitsToNat_natToStrAux (n + 1) n (by omega)

theorem takeDigits_all (s : Str) (h : ∀ c ∈ s, digitB c = true) :
    takeDigits s = (s, []) := by
  induction s with
  | nil => rfl
  | cons a t ih =>
    rw [takeDigits, if_pos (h a (by simp)), ih fun c hc => h c (List.mem_cons_of_mem a hc)]

theorem parseSign_no_sign (s : Str) (h : ∀ c ∈ s, digitB c = true) :
    parseSign s = (false, s) := by
  cases s with
  | nil => rfl
  | cons a t =>
    have ha := h a (by simp)
    rw [parseSign, if_neg, if_neg]
    · intro he
      rw [he] at ha
      exact absurd ha (by decide)
    · intro he
      rw [he] at ha
      exact absurd ha (by decide)

theorem str2intZ_intToStr (v : Int) : str2intZ (intToStr v) = some v := by
  rw [intToStr]
  by_cases h : v < 0
  · rw [if_pos h, str2intZ]
    have hp : parseSign ('-' :: natToStr v.natAbs) = (true, natToStr v.natAbs) := by
      rw [parseSign]
      simp
    rw [hp]
    dsimp only
    rw [takeDigits_all _ (natToStr_digits _)]
    dsimp only
    rw [if_neg (by simp [natToStr_ne_nil])]
    rw [digitsToNat_natToStr]
    simp only [if_true, Option.some.injEq]
    omega
  · rw [if_neg h, str2intZ, parseSign_no_sign _ (natToStr_digits _)]
    dsimp only
    rw [takeDigits_all _ (natToStr_digits _)]
    dsimp only
    rw [if_neg (by simp [natToStr_ne_nil])]
    rw [digitsToNat_natToStr, if_neg (by decide)]
    simp only [Option.some.injEq]
    omega

theorem intToStr_chars (v : Int) : ∀ c ∈ intToStr v, numChar c = true := by
  intro c hc
  rw [intToStr] at hc
  by_cases h : v < 0
  · rw [if_pos h] at hc
    rcases List.mem_cons.mp hc with hc | hc
    · rw [hc]; decide
    · exact digitB_numChar c (natToStr_digits _ c hc)
  · rw [if_neg h] at hc
    exact digitB_numChar c (natToStr_digits _ c hc)

theorem intToStr_ne_nil (v : Int) : intToStr v ≠ [] := by
  rw [intToStr]
  by_cases h : v < 0
  · rw [if_pos h]; simp
  · rw [if_neg h]; exact natToStr_ne_nil _

theorem intToStr_trim (v : Int) : trim (intToStr v) = intToStr v :=
  trim_eq_self_of_all _ fun c hc => wsChar_of_numChar c (intToStr_chars v c hc)

/-! ## Re-parse (idempotence) lemmas for the stored value forms -/

theorem takeWhile_prop (p : Char → Bool) (l : Str) :
    ∀ c ∈ l.takeWhile p, p c = true := by
  induction l with
  | nil => intro c hc; simp at hc
  | cons a t ih =>
    intro c hc
    rw [List.takeWhile_cons] at hc
    by_cases hp : p a = true
    · simp only [hp, if_true] at hc
      rcases List.mem_cons.mp hc with h | h
      · rw [h]; exact hp
      · exact ih c h
    · simp [hp] at hc

theorem takeWhile_subset (p : Char → Bool) (l : Str) :
    ∀ c ∈ l.takeWhile p, c ∈ l := by
  induction l with
  | nil => intro c hc; simp at hc
  | cons a t ih =>
    intro c hc
    rw [List.takeWhile_cons] at hc
    by_cases hp : p a = true
    · simp only [hp, if_true] at hc
      rcases List.mem_cons.mp hc with h | h
      · simp [h]
      · exact List.mem_cons_of_mem a (ih c h)
    · simp [hp] at hc

theorem mem_of_take {α : Type} (l : List α) (n : Nat) :
    ∀ c ∈ l.take n, c ∈ l := by
  induction l generalizing n with
  | nil => intro c hc; simp at hc
  | cons a t ih =>
    intro c hc
    cases n with
    | zero => simp at hc
    | succ m =>
      rw [List.take_succ_cons] at hc
      rcases List.mem_cons.mp hc with h | h
      · simp [h]
      · exact List.mem_cons_of_mem a (ih m c h)

theorem wsChar_of_alpha (c : Char) (h : isAlphaAZ c = true) : wsChar c = false := by
  cases hw : wsChar c
  · rfl
  · exfalso
    rw [wsChar] at hw
    simp only [Bool.or_eq_true, decide_eq_true_eq] at hw
    rcases hw with ((hw | hw) | hw) | hw <;> subst hw <;> revert h <;> decide

/-- A successful ValDbl::set_from_strrep leaves a remembered text that
re-parses to exactly the same state: the origstrrep mechanism is lossless.
The remembered text is non-empty, trimmed, and its characters all occur in
the input. -/
theorem setDblFromStr_idem (ut : UnitType) (s : Str) (v : DVal) (o : Str)
    (h : setDblFromStr ut s = .ok (v, o)) :
    setDblFromStr ut o = .ok (v, o) ∧ o ≠ [] ∧ trim o = o ∧ ∀ c ∈ o, c ∈ s := by
  rw [setDblFromStr] at h
  by_cases hC : ut ≠ UnitType.utNone ∧ 1 < (trim s).length ∧ lastIsAlpha (trim s) = true
  · rw [if_pos hC] at h
    rcases hul : unitLookup ut (unitOf (trim s)) with _ | fo
    · rw [hul] at h
      exact absurd h (by simp)
    rw [hul] at h
    dsimp only at h
    rcases hqq : str2dblQ (numPartOf (trim s)) with _ | q
    · rw [hqq] at h
      exact absurd h (by simp)
    rw [hqq] at h
    dsimp only at h
    have hv : v = DVal.affineApply fo.1 fo.2 q := by
      simp only [Except.ok.injEq, Prod.mk.injEq] at h
      exact h.1.symm
    have ho : o = trim (numPartOf (trim s) ++ unitOf (trim s)) := by
      simp only [Except.ok.injEq, Prod.mk.injEq] at h
      exact h.2.symm
    set unit := unitOf (trim s) with hunit
    set tmp1 := numPartOf (trim s) with htmp1
    -- facts about the unit suffix
    have hunitAlpha : ∀ c ∈ unit, isAlphaAZ c = true := by
      intro c hc
      rw [hunit, unitOf, List.mem_reverse] at hc
      exact takeWhile_prop isAlphaAZ _ c hc
    obtain ⟨cl, hgl, hcl⟩ : ∃ cl, (trim s).getLast? = some cl ∧ isAlphaAZ cl = true := by
      have hla := hC.2.2
      rw [lastIsAlpha] at hla
      rcases hgl : (trim s).getLast? with _ | cl
      · rw [hgl] at hla
        simp at hla
      · rw [hgl] at hla
        exact ⟨cl, rfl, hla⟩
    obtain ⟨rest, hrev⟩ : ∃ rest, (trim s).reverse = cl :: rest := by
      have hh : (trim s).reverse.head? = some cl := by
        rw [List.head?_reverse]
        exact hgl
      cases hr : (trim s).reverse with
      | nil => rw [hr] at hh; simp at hh
      | cons a b =>
        rw [hr] at hh
        simp at hh
        exact ⟨b, by rw [hh]⟩
    have hunitNe : unit ≠ [] := by
      rw [hunit, unitOf, hrev, List.takeWhile_cons, if_pos hcl]
      simp
    -- facts about the number part
    have htmp1tr : trim tmp1 = tmp1 := by
      rw [htmp1, numPartOf, trim_idem]
    have htmp1ne : tmp1 ≠ [] := str2dblQ_ne_nil _ q hqq
    have htmp1chars : ∀ c ∈ tmp1, numChar c = true := str2dblQ_chars _ q hqq
    obtain ⟨cm, hcm, hcmna⟩ := str2dblQ_last_not_alpha _ q hqq
    -- the remembered text needs no trimming
    have hou : trim (tmp1 ++ unit) = tmp1 ++ unit := by
      apply trim_eq_self
      · intro c hc
        rw [headAppend tmp1 unit htmp1ne] at hc
        exact wsChar_of_numChar c (htmp1chars c (head?_mem' tmp1 c hc))
      · intro c hc
        rw [lastAppend tmp1 unit hunitNe] at hc
        exact wsChar_of_alpha c (hunitAlpha c (getLast?_mem' unit c hc))
    have ho2 : o = tmp1 ++ unit := by rw [ho, hou]
    have htrimo : trim o = o := by rw [ho, trim_idem]
    -- the re-parse recovers the same pieces
    have hlen : 1 < o.length := by
      rw [ho2, List.length_append]
      have h1 : 0 < tmp1.length := List.length_pos.mpr htmp1ne
      have h2 : 0 < unit.length := List.length_pos.mpr hunitNe
      omega
    obtain ⟨ul, hulast, hulm⟩ := exists_getLast unit hunitNe
    have hlasto : lastIsAlpha o = true := by
      rw [lastIsAlpha, ho2, lastAppend tmp1 unit hunitNe, hulast]
      exact hunitAlpha ul hulm
    have hunitRec : unitOf o = unit := by
      rw [unitOf, ho2, List.reverse_append]
      rw [takeWhile_append_all isAlphaAZ unit.reverse tmp1.reverse
        (fun c hc => hunitAlpha c (List.mem_reverse.mp hc))]
      rw [takeWhile_nil_of_head isAlphaAZ tmp1.reverse cm
        (by rw [List.head?_reverse]; exact hcm) hcmna]
      simp
    have htmp1Rec : numPartOf o = tmp1 := by
      rw [numPartOf, hunitRec]
      have hlen2 : o.length - unit.length = tmp1.length := by
        rw [ho2, List.length_append]
        omega
      rw [hlen2, ho2, takeLenAppend, htmp1tr]
    refine ⟨?_, ?_, htrimo, ?_⟩
    · rw [setDblFromStr, htrimo, if_pos ⟨hC.1, hlen, hlasto⟩, hunitRec, htmp1Rec, hul]
      dsimp only
      rw [hqq]
      dsimp only
      rw [← hv, hou, ← ho2]
    · rw [ho2]
      simp [htmp1ne]
    · intro c hc
      rw [ho2] at hc
      rcases List.mem_append.mp hc with hc | hc
      · rw [htmp1, numPartOf] at hc
        have h1 := mem_trim _ c hc
        have h2 := mem_of_take _ _ c h1
        exact mem_trim s c h2
      · rw [hunit, unitOf] at hc
        have h1 := takeWhile_subset isAlphaAZ _ c (List.mem_reverse.mp hc)
        exact mem_trim s c (List.mem_reverse.mp h1)
  · rw [if_neg hC] at h
    rcases hqq : str2dblQ (trim s) with _ | q
    · rw [hqq] at h
      exact absurd h (by simp)
    · rw [hqq] at h
      dsimp only at h
      have hv : v = DVal.ofQ q := by
        simp only [Except.ok.injEq, Prod.mk.injEq] at h
        exact h.1.symm
      have ho : o = trim s := by
        simp only [Except.ok.injEq, Prod.mk.injEq] at h
        exact h.2.symm
      subst hv
      subst ho
      refine ⟨?_, str2dblQ_ne_nil _ q hqq, trim_idem s, fun c hc => mem_trim s c hc⟩
      rw [setDblFromStr, trim_idem, if_neg hC, hqq]

/-- A successful orientCore stores its (already trimmed) input verbatim as
the remembered text. -/
theorem orientCore_shape (st : Str) (pv : PValue) (h : orientCore st = .ok pv) :
    ∃ k c1 c2 c3 l1 l2 l3, pv = .orientV k c1 c2 c3 l1 l2 l3 st := by
  rw [orientCore] at h
  repeat' split at h
  all_goals simp only [Except.ok.injEq, reduceCtorEq] at h
  · exact ⟨_, _, _, _, _, _, _, h.symm⟩
  all_goals exact absurd h (fun hf => hf)

theorem setOrient_idem (s : Str) (pv : PValue) (h : setOrientFromStr s = .ok pv) :
    ∃ k c1 c2 c3 l1 l2 l3, pv = .orientV k c1 c2 c3 l1 l2 l3 (trim s)
      ∧ setOrientFromStr (trim s) = .ok pv := by
  rw [setOrientFromStr] at h
  obtain ⟨k, c1, c2, c3, l1, l2, l3, hpv⟩ := orientCore_shape _ pv h
  exact ⟨k, c1, c2, c3, l1, l2, l3, hpv, by rw [setOrientFromStr, trim_idem]; exact h⟩

theorem vecCore_shape (st : Str) (pv : PValue) (h : vecCore st = .ok pv) :
    ∃ x y z, pv = .vecV x y z st := by
  rw [vecCore] at h
  repeat' split at h
  all_goals simp only [Except.ok.injEq, reduceCtorEq] at h
  · exact ⟨_, _, _, h.symm⟩
  all_goals exact absurd h (fun hf => hf)

theorem setVec_idem (s : Str) (pv : PValue) (h : setVecFromStr s = .ok pv) :
    ∃ x y z, pv = .vecV x y z (trim s) ∧ setVecFromStr (trim s) = .ok pv := by
  rw [setVecFromStr] at h
  obtain ⟨x, y, z, hpv⟩ := vecCore_shape _ pv h
  exact ⟨x, y, z, hpv, by rw [setVecFromStr, trim_idem]; exact h⟩

theorem setStr_shape (s : Str) (pv : PValue) (h : setStrFromStr s = .ok pv) :
    pv = .strV s := by
  rw [setStrFromStr] at h
  repeat' split at h
  all_goals simp only [Except.ok.injEq, reduceCtorEq] at h
  · exact h.symm
  all_goals exact absurd h (fun hf => hf)

theorem orientCore_nil : orientCore [] = .error .badInput := by decide

theorem vecCore_nil : vecCore [] = .error .badInput := by decide

theorem orientCore_ne_nil (st : Str) (pv : PValue) (h : orientCore st = .ok pv) :
    st ≠ [] := by
  intro he
  rw [he, orientCore_nil] at h
  exact absurd h (by simp)

theorem vecCore_ne_nil (st : Str) (pv : PValue) (h : vecCore st = .ok pv) :
    st ≠ [] := by
  intro he
  rw [he, vecCore_nil] at h
  exact absurd h (by simp)

theorem wsSplit_props (s : Str) :
    ∀ w ∈ wsSplit s, w ≠ [] ∧ ∀ c ∈ w, wsChar c = false ∧ c ∈ s := by
  intro w hw
  rw [wsSplit] at hw
  obtain ⟨hw1, hw2⟩ := List.mem_filter.mp hw
  refine ⟨by simpa using hw2, fun c hc => ?_⟩
  exact splitP_sepFree wsChar s w hw1 c hc

theorem strReplaceColon_mem (L : Str) (c : Char) (h : c ∈ strReplaceColon L) :
    c = ' ' ∨ (c ∈ L ∧ c ≠ ':') := by
  rw [strReplaceColon] at h
  obtain ⟨c0, hc0, hfc⟩ := List.mem_map.mp h
  by_cases h0 : c0 = ':'
  · left
    rw [← hfc]
    simp [h0]
  · right
    rw [← hfc]
    simp only [h0, if_neg, if_false]
    exact ⟨hc0, h0⟩

theorem splitCh_sepFree (sep : Char) (s : Str) (x : Str) (hx : x ∈ splitCh sep s) :
    (∀ c ∈ x, c ≠ sep ∧ c ∈ s) := by
  intro c hc
  obtain ⟨h1, h2⟩ := splitP_sepFree _ s x hx c hc
  refine ⟨?_, h2⟩
  intro he
  rw [he] at h1
  simp at h1

theorem atomdbParseLines_props (s : Str) :
    ∀ line ∈ atomdbParseLines s, ∀ w ∈ line, w ≠ [] ∧
      ∀ c ∈ w, wsChar c = false ∧ c ≠ ':' ∧ c ≠ '@' ∧ c ∈ s := by
  intro line hline w hw
  rw [atomdbParseLines] at hline
  obtain ⟨L, hL, hLf⟩ := List.mem_map.mp hline
  rw [← hLf] at hw
  obtain ⟨hwne, hwc⟩ := wsSplit_props (strReplaceColon L) w hw
  refine ⟨hwne, fun c hc => ?_⟩
  obtain ⟨hcw, hcm⟩ := hwc c hc
  rcases strReplaceColon_mem L c hcm with h0 | ⟨hcl, hcolon⟩
  · exfalso
    rw [h0] at hcw
    exact absurd hcw (by decide)
  · obtain ⟨hat, hs⟩ := splitCh_sepFree '@' s L hL c hcl
    exact ⟨hcw, hcolon, hat, hs⟩

theorem atomdbAux_sub : ∀ (i : Nat) (ls v : List (List Str)),
    atomdbAux i ls = .ok v → ∀ line ∈ v, line ∈ ls ∧ line ≠ [] := by
  intro i ls
  induction ls generalizing i with
  | nil =>
    intro v h line hline
    rw [atomdbAux] at h
    simp only [Except.ok.injEq] at h
    rw [← h] at hline
    simp at hline
  | cons L rest ih =>
    intro v h line hline
    rw [atomdbAux] at h
    by_cases hL : L = []
    · rw [if_pos hL] at h
      obtain ⟨h1, h2⟩ := ih i v h line hline
      exact ⟨List.mem_cons_of_mem L h1, h2⟩
    · rw [if_neg hL] at h
      by_cases h1 : (!(L.all atomdbWordOK)) = true
      · rw [if_pos h1] at h
        exact absurd h (by simp)
      · rw [if_neg h1] at h
        by_cases h2 : (!(validateAtomDBLineB L)) = true
        · rw [if_pos h2] at h
          exact absurd h (by simp)
        · rw [if_neg h2] at h
          by_cases h3 : L = [ndLit] ∧ 0 < i
          · rw [if_pos h3] at h
            exact absurd h (by simp)
          · rw [if_neg h3] at h
            rcases haux : atomdbAux (i + 1) rest with e | v'
            · rw [haux] at h
              exact absurd (h : (Except.error e : Except ErrKind _) = .ok v) (fun hx => Except.noConfusion hx)
            · rw [haux] at h
              have h9 : (Except.ok (L :: v') : Except ErrKind _) = .ok v := h
              simp only [Except.ok.injEq] at h9
              rw [← h9] at hline
              rcases List.mem_cons.mp hline with hl | hl
              · exact ⟨by rw [hl]; simp, by rw [hl]; exact hL⟩
              · obtain ⟨g1, g2⟩ := ih (i + 1) v' haux line hl
                exact ⟨List.mem_cons_of_mem L g1, g2⟩

theorem atomdbAux_idem : ∀ (i : Nat) (ls v : List (List Str)),
    atomdbAux i ls = .ok v → atomdbAux i v = .ok v := by
  intro i ls
  induction ls generalizing i with
  | nil =>
    intro v h
    rw [atomdbAux] at h
    simp only [Except.ok.injEq] at h
    rw [← h]
    rfl
  | cons L rest ih =>
    intro v h
    rw [atomdbAux] at h
    by_cases hL : L = []
    · rw [if_pos hL] at h
      exact ih i v h
    · rw [if_neg hL] at h
      by_cases h1 : (!(L.all atomdbWordOK)) = true
      · rw [if_pos h1] at h
        exact absurd h (by simp)
      · rw [if_neg h1] at h
        by_cases h2 : (!(validateAtomDBLineB L)) = true
        · rw [if_pos h2] at h
          exact absurd h (by simp)
        · rw [if_neg h2] at h
          by_cases h3 : L = [ndLit] ∧ 0 < i
          · rw [if_pos h3] at h
            exact absurd h (by simp)
          · rw [if_neg h3] at h
            rcases haux : atomdbAux (i + 1) rest with e | v'
            · rw [haux] at h
              exact absurd (h : (Except.error e : Except ErrKind _) = .ok v) (fun hx => Except.noConfusion hx)
            · rw [haux] at h
              have h9 : (Except.ok (L :: v') : Except ErrKind _) = .ok v := h
              simp only [Except.ok.injEq] at h9
              rw [← h9, atomdbAux, if_neg hL, if_neg h1, if_neg h2, if_neg h3,
                ih (i + 1) v' haux]
              rfl

theorem map_joinSep (f : Char → Char) (sep : Str) (l : List Str) :
    (joinSep sep l).map f = joinSep (sep.map f) (l.map (List.map f)) := by
  induction l with
  | nil => rfl
  | cons x t ih =>
    rcases t with _ | ⟨y, rest⟩
    · rfl
    · rw [joinSep, List.map_append, List.map_append, ih]
      rfl

theorem map_self {α : Type} (f : α → α) (l : List α) (h : ∀ a ∈ l, f a = a) :
    l.map f = l := by
  induction l with
  | nil => rfl
  | cons x t ih =>
    rw [List.map_cons, h x (by simp), ih fun a ha => h a (List.mem_cons_of_mem x ha)]

theorem strReplaceColon_joinColon (line : List Str)
    (h : ∀ w ∈ line, ∀ c ∈ w, c ≠ ':') :
    strReplaceColon (joinSep [':'] line) = joinSep [' '] line := by
  rw [strReplaceColon, map_joinSep]
  have h2 : line.map (List.map fun c => if c = ':' then ' ' else c) = line := by
    apply map_self
    intro w hw
    apply map_self
    intro c hc
    rw [if_neg (h w hw c hc)]
  rw [h2]
  rfl

theorem wsSplit_joinSpace (line : List Str) (hne : line ≠ [])
    (h : ∀ w ∈ line, w ≠ [] ∧ ∀ c ∈ w, wsChar c = false) :
    wsSplit (joinSep [' '] line) = line := by
  rw [wsSplit,
    splitP_joinSep wsChar ' ' line (by decide) hne fun x hx c hc => (h x hx).2 c hc]
  rw [List.filter_eq_self.mpr]
  intro w hw
  simpa using (h w hw).1

theorem atomdbJoin_chars (v : List (List Str)) (c : Char) (h : c ∈ atomdbJoin v) :
    c = '@' ∨ c = ':' ∨ ∃ line ∈ v, ∃ w ∈ line, c ∈ w := by
  rw [atomdbJoin] at h
  rcases joinSep_chars _ _ c h with h1 | ⟨x, hx, hcx⟩
  · left
    simpa using h1
  · obtain ⟨line, hline, hxf⟩ := List.mem_map.mp hx
    rw [← hxf] at hcx
    rcases joinSep_chars _ _ c hcx with h2 | ⟨w, hwl, hcw⟩
    · right; left
      simpa using h2
    · right; right
      exact ⟨line, hline, w, hwl, hcw⟩

theorem atomdbParse_join (v : List (List Str)) (hvne : v ≠ [])
    (h : ∀ line ∈ v, line ≠ [] ∧ ∀ w ∈ line, w ≠ [] ∧
      ∀ c ∈ w, wsChar c = false ∧ c ≠ ':' ∧ c ≠ '@') :
    atomdbParseLines (atomdbJoin v) = v := by
  rw [atomdbParseLines, atomdbJoin, splitCh,
    splitP_joinSep _ '@' (v.map (joinSep [':'])) (by simp) (by simpa using hvne) ?pieces]
  case pieces =>
    intro x hx c hc
    obtain ⟨line, hline, hxf⟩ := List.mem_map.mp hx
    rw [← hxf] at hc
    have hne : ¬ c = '@' := by
      rcases joinSep_chars _ _ c hc with h1 | ⟨w, hwl, hcw⟩
      · simp at h1
        rw [h1]
        decide
      · exact (((h line hline).2 w hwl).2 c hcw).2.2
    simpa using hne
  rw [List.map_map]
  apply map_self
  intro line hline
  obtain ⟨hlne, hw⟩ := h line hline
  show wsSplit (strReplaceColon (joinSep [':'] line)) = line
  rw [strReplaceColon_joinColon line fun w hw' c hc => ((hw w hw').2 c hc).2.1]
  exact wsSplit_joinSpace line hlne fun w hw' =>
    ⟨(hw w hw').1, fun c hc => ((hw w hw').2 c hc).1⟩

/-- A successful ValAtomDB::set_from_strrep stores the joined one-line form
(value_as_string), and that form re-parses to exactly the same state. -/
theorem setAtomdb_idem (s : Str) (pv : PValue) (h : setAtomdbFromStr s = .ok pv) :
    ∃ v, pv = .atomdbV v (atomdbJoin v)
      ∧ setAtomdbFromStr (atomdbJoin v) = .ok pv
      ∧ trim (atomdbJoin v) = atomdbJoin v
      ∧ ∀ c ∈ atomdbJoin v, c = '@' ∨ c = ':' ∨ c ∈ s := by
  rw [setAtomdbFromStr, atomdbSetLines] at h
  rcases haux : atomdbAux 0 (atomdbParseLines s) with e | v
  · rw [haux] at h
    exact absurd (h : (Except.error e : Except ErrKind _) = .ok pv)
      (fun hx => Except.noConfusion hx)
  · rw [haux] at h
    have h9 : (Except.ok (PValue.atomdbV v (atomdbJoin v)) : Except ErrKind _) = .ok pv := h
    simp only [Except.ok.injEq] at h9
    subst h9
    have hprops : ∀ line ∈ v, line ≠ [] ∧ ∀ w ∈ line, w ≠ [] ∧
        ∀ c ∈ w, wsChar c = false ∧ c ≠ ':' ∧ c ≠ '@' ∧ c ∈ s := by
      intro line hline
      obtain ⟨hmem, hne⟩ := atomdbAux_sub 0 (atomdbParseLines s) v haux line hline
      exact ⟨hne, fun w hw => atomdbParseLines_props s line hmem w hw⟩
    have hcc : ∀ c ∈ atomdbJoin v, c = '@' ∨ c = ':' ∨ c ∈ s := by
      intro c hc
      rcases atomdbJoin_chars v c hc with h1 | h1 | ⟨line, hline, w, hwl, hcw⟩
      · exact Or.inl h1
      · exact Or.inr (Or.inl h1)
      · exact Or.inr (Or.inr ((((hprops line hline).2 w hwl).2 c hcw).2.2.2))
    refine ⟨v, rfl, ?_, ?_, hcc⟩
    · by_cases hv : v = []
      · subst hv
        decide
      · rw [setAtomdbFromStr,
          atomdbParse_join v hv (fun line hline =>
            ⟨(hprops line hline).1, fun w hw => ⟨((hprops line hline).2 w hw).1,
              fun c hc => ⟨(((hprops line hline).2 w hw).2 c hc).1,
                (((hprops line hline).2 w hw).2 c hc).2.1,
                (((hprops line hline).2 w hw).2 c hc).2.2.1⟩⟩⟩),
          atomdbSetLines, atomdbAux_idem 0 (atomdbParseLines s) v haux]
        rfl
    · apply trim_eq_self_of_all
      intro c hc
      rcases atomdbJoin_chars v c hc with h1 | h1 | ⟨line, hline, w, hwl, hcw⟩
      · rw [h1]; decide
      · rw [h1]; decide
      · exact (((hprops line hline).2 w hwl).2 c hcw).1

/-! ## The well-formedness invariant of tables built from strings -/

theorem char_toNat_inj {a b : Char} (h : a.toNat = b.toNat) : a = b :=
  Char.ext (UInt32.ext h)

/-- The per-character content of the applyStrCfg gates: printable ASCII or
tab or newline, and not one of the forbidden characters. -/
def gateChar (c : Char) : Bool :=
  (simpleAsciiChar c || c = Char.ofNat 9 || (c = Char.ofNat 10 || c = Char.ofNat 13))
    && !(forbiddenCfgChars.any fun n => n = c)

/-- A character that passes the gates and is neither the part separator
nor the key-value separator. -/
def strOKchar (c : Char) : Bool :=
  gateChar c && !(c = ';') && !(c = '=')

/-- A string of such characters (the invariant satisfied by every stored
textual representation). -/
def strOK (s : Str) : Bool :=
  s.all strOKchar

theorem strOK_mem (s : Str) (h : strOK s = true) : ∀ c ∈ s, strOKchar c = true :=
  List.all_eq_true.mp h

theorem strOK_of_mem (s : Str) (h : ∀ c ∈ s, strOKchar c = true) : strOK s = true :=
  List.all_eq_true.mpr h

theorem strOKchar_parts (c : Char) (h : strOKchar c = true) :
    gateChar c = true ∧ c ≠ ';' ∧ c ≠ '=' := by
  rw [strOKchar] at h
  simp only [Bool.and_eq_true, Bool.not_eq_true', decide_eq_false_iff_not] at h
  exact ⟨h.1.1, h.1.2, h.2⟩

theorem strOKchar_make (c : Char) (hg : gateChar c = true) (h1 : c ≠ ';')
    (h2 : c ≠ '=') : strOKchar c = true := by
  rw [strOKchar]
  simp [hg, h1, h2]

/-- The gate checks of applyStrCfg, read per character. -/
theorem gate_chars (s : Str) (h1 : isSimpleASCII s true true = true)
    (h2 : containsAny s forbiddenCfgChars = false) :
    ∀ c ∈ s, gateChar c = true := by
  intro c hc
  rw [isSimpleASCII, List.all_eq_true] at h1
  have ha := h1 c hc
  rw [containsAny] at h2
  have hb : (forbiddenCfgChars.any fun n => n = c) = false := by
    cases hx : forbiddenCfgChars.any fun n => n = c
    · rfl
    · exfalso
      have h3 : (s.any fun x => forbiddenCfgChars.any fun n => n = x) = true :=
        List.any_eq_true.mpr ⟨c, hc,
          show (forbiddenCfgChars.any fun n => n = c) = true from hx⟩
      rw [h2] at h3
      exact Bool.false_ne_true h3
  rw [gateChar, hb]
  simp only [Bool.true_and, Bool.and_true, Bool.not_false]
  simpa using ha

/-- Per-character containment implies the applyStrCfg gates pass. -/
theorem chars_gate (s : Str) (h : ∀ c ∈ s, gateChar c = true) :
    isSimpleASCII s true true = true ∧ containsAny s forbiddenCfgChars = false := by
  constructor
  · rw [isSimpleASCII, List.all_eq_true]
    intro c hc
    have := h c hc
    rw [gateChar] at this
    simp only [Bool.and_eq_true] at this
    simpa using this.1
  · rw [containsAny]
    cases hx : s.any fun c => forbiddenCfgChars.any fun n => n = c
    · rfl
    · exfalso
      obtain ⟨c, hc, hcc⟩ := List.any_eq_true.mp hx
      have := h c hc
      rw [gateChar] at this
      simp only [Bool.and_eq_true, Bool.not_eq_true'] at this
      rw [this.2] at hcc
      exact Bool.false_ne_true hcc

theorem gateChar_arith (c : Char) (h1 : 32 ≤ c.toNat) (h2 : c.toNat ≤ 126)
    (hn : c.toNat ≠ 34 ∧ c.toNat ≠ 39 ∧ c.toNat ≠ 124 ∧ c.toNat ≠ 62 ∧ c.toNat ≠ 60
      ∧ c.toNat ≠ 40 ∧ c.toNat ≠ 41 ∧ c.toNat ≠ 123 ∧ c.toNat ≠ 125
      ∧ c.toNat ≠ 91 ∧ c.toNat ≠ 93) : gateChar c = true := by
  obtain ⟨n1, n2, n3, n4, n5, n6, n7, n8, n9, n10, n11⟩ := hn
  have hb : (forbiddenCfgChars.any fun n => n = c) = false := by
    cases hx : forbiddenCfgChars.any fun n => n = c
    · rfl
    · exfalso
      obtain ⟨a, ha, hac⟩ := List.any_eq_true.mp hx
      have hac2 : a = c := of_decide_eq_true hac
      rw [forbiddenCfgChars] at ha
      simp only [List.mem_cons, List.not_mem_nil, or_false] at ha
      rcases ha with h | h | h | h | h | h | h | h | h | h | h
      · exact n1 (by subst h; subst hac2; rfl)
      · exact n2 (by subst h; subst hac2; rfl)
      · exact n3 (by subst h; subst hac2; rfl)
      · exact n4 (by subst h; subst hac2; rfl)
      · exact n5 (by subst h; subst hac2; rfl)
      · exact n6 (by subst h; subst hac2; rfl)
      · exact n7 (by subst h; subst hac2; rfl)
      · exact n8 (by subst h; subst hac2; rfl)
      · exact n9 (by subst h; subst hac2; rfl)
      · exact n10 (by subst h; subst hac2; rfl)
      · exact n11 (by subst h; subst hac2; rfl)
  have hsa : simpleAsciiChar c = true := by
    rw [simpleAsciiChar]
    simp only [Bool.and_eq_true, decide_eq_true_eq]
    omega
  rw [gateChar, hb, hsa]
  simp

theorem strOKchar_arith (c : Char) (h1 : 32 ≤ c.toNat) (h2 : c.toNat ≤ 126)
    (hn : c.toNat ≠ 34 ∧ c.toNat ≠ 39 ∧ c.toNat ≠ 124 ∧ c.toNat ≠ 62 ∧ c.toNat ≠ 60
      ∧ c.toNat ≠ 40 ∧ c.toNat ≠ 41 ∧ c.toNat ≠ 123 ∧ c.toNat ≠ 125
      ∧ c.toNat ≠ 91 ∧ c.toNat ≠ 93 ∧ c.toNat ≠ 59 ∧ c.toNat ≠ 61) :
    strOKchar c = true := by
  apply strOKchar_make
  · exact gateChar_arith c h1 h2
      ⟨hn.1, hn.2.1, hn.2.2.1, hn.2.2.2.1, hn.2.2.2.2.1, hn.2.2.2.2.2.1,
        hn.2.2.2.2.2.2.1, hn.2.2.2.2.2.2.2.1, hn.2.2.2.2.2.2.2.2.1,
        hn.2.2.2.2.2.2.2.2.2.1, hn.2.2.2.2.2.2.2.2.2.2.1⟩
  · exact fun he => hn.2.2.2.2.2.2.2.2.2.2.2.1 (by subst he; decide)
  · exact fun he => hn.2.2.2.2.2.2.2.2.2.2.2.2 (by subst he; decide)

theorem strOKchar_of_numChar (c : Char) (h : numChar c = true) :
    strOKchar c = true := by
  rw [numChar] at h
  simp only [Bool.or_eq_true, decide_eq_true_eq] at h
  rcases h with ((((hd | hp) | hm) | hdot) | he) | hE
  · rw [digitB] at hd
    simp only [Bool.and_eq_true, decide_eq_true_eq] at hd
    apply strOKchar_arith c (by omega) (by omega)
    omega
  · rw [hp]; decide
  · rw [hm]; decide
  · rw [hdot]; decide
  · rw [he]; decide
  · rw [hE]; decide

theorem strOKchar_of_alpha (c : Char) (h : isAlphaAZ c = true) :
    strOKchar c = true := by
  rw [isAlphaAZ] at h
  simp only [Bool.or_eq_true, Bool.and_eq_true, decide_eq_true_eq] at h
  rcases h with h | h <;>
    exact strOKchar_arith c (by omega) (by omega) (by omega)

/-- Well-formedness of a stored value: its serialized text re-parses to
exactly the same value, is made of characters that pass the applyStrCfg
gates and are free of separators, and needs no trimming.  Every value ever
produced by a successful string set satisfies this (WFv_of_set). -/
def WFv (p : Param) (pv : PValue) : Prop :=
  mkSetPValue (partype p) (unitsFor p) (pvalToStrrep false pv) = .ok pv
    ∧ strOK (pvalToStrrep false pv) = true
    ∧ trim (pvalToStrrep false pv) = pvalToStrrep false pv

/-- Well-formedness of a table: every stored value is well formed. -/
def WF (t : Table) : Prop := ∀ p pv, t p = some pv → WFv p pv

theorem WF_empty : WF emptyTable := by
  intro p pv h
  simp [emptyTable] at h

theorem WF_set (t : Table) (p : Param) (pv : PValue) (hWF : WF t) (hv : WFv p pv) :
    WF (t.set p pv) := by
  intro q qv hq
  rw [Table.set] at hq
  by_cases hpq : q = p
  · subst hpq
    rw [Function.update_same] at hq
    injection hq with hq2
    rw [← hq2]
    exact hv
  · rw [Function.update_noteq hpq] at hq
    exact hWF q qv hq

theorem strrep_dbl (v : DVal) (o : Str) (h : o ≠ []) :
    pvalToStrrep false (.dblV v o) = o := by
  rw [pvalToStrrep]
  simp [h]

theorem strrep_orient (k : Bool) (c1 c2 c3 l1 l2 l3 : DVal) (o : Str) (h : o ≠ []) :
    pvalToStrrep false (.orientV k c1 c2 c3 l1 l2 l3 o) = o := by
  rw [pvalToStrrep]
  simp [h]

theorem strrep_vec (x y z : DVal) (o : Str) (h : o ≠ []) :
    pvalToStrrep false (.vecV x y z o) = o := by
  rw [pvalToStrrep]
  simp [h]

/-- A successful set_from_strrep on a trimmed, gate-clean value string
produces a well-formed stored value. -/
theorem WFv_of_set (p : Param) (value : Str) (pv : PValue)
    (hset : mkSetPValue (partype p) (unitsFor p) value = .ok pv)
    (hOK : strOK value = true) (htr : trim value = value) : WFv p pv := by
  rcases hty : partype p with _ | _ | _ | _ | _ | _ | _ <;> rw [hty] at hset
  case tDbl =>
    rw [mkSetPValue] at hset
    rcases hsd : setDblFromStr (unitsFor p) value with e | vo
    · rw [hsd] at hset
      exact absurd (hset : (Except.error e : Except ErrKind _) = .ok pv)
        (fun hx => Except.noConfusion hx)
    · rw [hsd] at hset
      have h9 : (Except.ok (PValue.dblV vo.1 vo.2) : Except ErrKind _) = .ok pv := hset
      simp only [Except.ok.injEq] at h9
      obtain ⟨hidem, hne, htrim2, hsub⟩ :=
        setDblFromStr_idem (unitsFor p) value vo.1 vo.2 (by rw [hsd])
      rw [WFv, hty, ← h9, strrep_dbl vo.1 vo.2 hne]
      refine ⟨?_, ?_, htrim2⟩
      · rw [mkSetPValue, hidem]
        rfl
      · exact strOK_of_mem _ fun c hc => strOK_mem value hOK c (hsub c hc)
  case tInt =>
    rw [mkSetPValue, setIntFromStr] at hset
    rcases hz : str2intZ value with _ | n
    · rw [hz] at hset
      exact absurd hset (fun hx => Except.noConfusion hx)
    · rw [hz] at hset
      simp only [Except.ok.injEq] at hset
      rw [WFv, hty, ← hset]
      refine ⟨?_, ?_, intToStr_trim n⟩
      · show setIntFromStr (intToStr n) = .ok (.intV n)
        rw [setIntFromStr, str2intZ_intToStr]
      · exact strOK_of_mem _ fun c hc => strOKchar_of_numChar c (intToStr_chars n c hc)
  case tBool =>
    rw [mkSetPValue, setBoolFromStr] at hset
    rcases hb : parseBoolRep value with _ | b
    · rw [hb] at hset
      exact absurd hset (fun hx => Except.noConfusion hx)
    · rw [hb] at hset
      simp only [Except.ok.injEq] at hset
      rw [WFv, hty, ← hset]
      cases b
      · refine ⟨?_, by decide, by decide⟩
        show setBoolFromStr (pvalToStrrep false (PValue.boolV false))
          = Except.ok (PValue.boolV false)
        decide
      · refine ⟨?_, by decide, by decide⟩
        show setBoolFromStr (pvalToStrrep false (PValue.boolV true))
          = Except.ok (PValue.boolV true)
        decide
  case tStr =>
    have hsh := setStr_shape value pv hset
    rw [WFv, hty, hsh]
    exact ⟨by rw [show pvalToStrrep false (.strV value) = value from rfl, mkSetPValue,
      ← hsh]; exact hset, hOK, htr⟩
  case tOrient =>
    obtain ⟨k, c1, c2, c3, l1, l2, l3, hpv, hre⟩ := setOrient_idem value pv hset
    rw [htr] at hpv hre
    have hne : value ≠ [] := by
      rw [mkSetPValue, setOrientFromStr, htr] at hset
      exact orientCore_ne_nil value pv hset
    rw [WFv, hty, hpv, strrep_orient k c1 c2 c3 l1 l2 l3 value hne]
    exact ⟨by rw [mkSetPValue, ← hpv]; exact hre, hOK, htr⟩
  case tVec =>
    obtain ⟨x, y, z, hpv, hre⟩ := setVec_idem value pv hset
    rw [htr] at hpv hre
    have hne : value ≠ [] := by
      rw [mkSetPValue, setVecFromStr, htr] at hset
      exact vecCore_ne_nil value pv hset
    rw [WFv, hty, hpv, strrep_vec x y z value hne]
    exact ⟨by rw [mkSetPValue, ← hpv]; exact hre, hOK, htr⟩
  case tAtomDB =>
    obtain ⟨v, hpv, hre, htrim2, hchars⟩ := setAtomdb_idem value pv hset
    rw [WFv, hty, hpv]
    rw [show pvalToStrrep false (.atomdbV v (atomdbJoin v)) = atomdbJoin v from rfl]
    refine ⟨by rw [mkSetPValue, ← hpv]; exact hre, ?_, htrim2⟩
    apply strOK_of_mem
    intro c hc
    rcases hchars c hc with h1 | h1 | h1
    · rw [h1]; decide
    · rw [h1]; decide
    · exact strOK_mem value hOK c h1

/-- The parameter-name lookup finds each parameter under its own name. -/
theorem parname_lookup : ∀ p : Param, strNameToParIdx (parname p) = some p := by
  decide

/-- Decidable facts about the parameter names: gate-clean and
separator-free, whitespace-free, non-empty, and distinct from the
pseudo-parameter names. -/
theorem parname_facts : ∀ p : Param, strOK (parname p) = true
    ∧ trim (parname p) = parname p ∧ parname p ≠ []
    ∧ parname p ≠ ("bragg".toList) ∧ parname p ≠ ("elas".toList)
    ∧ parname p ≠ ("bkgd".toList)
    ∧ ((parname p).all fun c => !(wsChar c)) = true := by
  decide

/-- Every non-string non-atomdb set_from_strrep rejects the empty string. -/
theorem mkSetPValue_nil (vt : VType) (ut : UnitType) (h1 : vt ≠ VType.tStr)
    (h2 : vt ≠ VType.tAtomDB) : mkSetPValue vt ut [] = .error .badInput := by
  cases vt <;> try (cases ut <;> decide)
  · exact absurd rfl h1
  · exact absurd rfl h2

theorem WFv_bool_coh (b : Bool) : WFv .coh_elas (.boolV b) := by
  cases b <;> exact ⟨by decide, by decide, by decide⟩

theorem WFv_bool_incoh (b : Bool) : WFv .incoh_elas (.boolV b) := by
  cases b <;> exact ⟨by decide, by decide, by decide⟩

theorem WFv_inelas_none : WFv .inelas (.strV ("none".toList)) :=
  ⟨by decide, by decide, by decide⟩

theorem setValByStrCore_WF (t : Table) (name value : Str) (t' : Table)
    (h : setValByStrCore t name value = .ok t') (hWF : WF t)
    (hOK : strOK value = true) (htr : trim value = value) : WF t' := by
  rw [setValByStrCore] at h
  rcases hn : strNameToParIdx name with _ | p
  · rw [hn] at h
    exact Except.noConfusion (h : (Except.error ErrKind.badInput : Except ErrKind Table) = .ok t')
  · rw [hn] at h
    replace h : (if value = [] ∧ partype p ≠ VType.tStr then Except.error ErrKind.badInput
        else (mkSetPValue (partype p) (unitsFor p) value).map (t.set p)) = Except.ok t' := h
    by_cases hc : value = [] ∧ partype p ≠ VType.tStr
    · rw [if_pos hc] at h
      exact Except.noConfusion h
    · rw [if_neg hc] at h
      rcases hm : mkSetPValue (partype p) (unitsFor p) value with e | pv
      · rw [hm] at h
        exact Except.noConfusion (h : (Except.error e : Except ErrKind Table) = .ok t')
      · rw [hm] at h
        have h2 : (Except.ok (t.set p pv) : Except ErrKind Table) = .ok t' := h
        simp only [Except.ok.injEq] at h2
        rw [← h2]
        exact WF_set t p pv hWF (WFv_of_set p value pv hm hOK htr)

theorem setValByStr_WF (t : Table) (name value : Str) (t' : Table)
    (h : setValByStr t name value = .ok t') (hWF : WF t)
    (hOK : strOK value = true) (htr : trim value = value) : WF t' := by
  rw [setValByStr] at h
  by_cases h1 : name = ("bragg".toList)
  · rw [if_pos h1] at h
    exact setValByStrCore_WF t _ value t' h hWF hOK htr
  · rw [if_neg h1] at h
    by_cases h2 : name = ("elas".toList)
    · rw [if_pos h2] at h
      rcases hb : parseBoolRep value with _ | b
      · rw [hb] at h
        exact Except.noConfusion
          (h : (Except.error ErrKind.badInput : Except ErrKind Table) = .ok t')
      · rw [hb] at h
        have h3 : (Except.ok ((t.set .coh_elas (.boolV b)).set .incoh_elas (.boolV b))
            : Except ErrKind Table) = .ok t' := h
        simp only [Except.ok.injEq] at h3
        rw [← h3]
        exact WF_set _ _ _ (WF_set _ _ _ hWF (WFv_bool_coh b)) (WFv_bool_incoh b)
    · rw [if_neg h2] at h
      by_cases h3 : name = ("bkgd".toList)
      · rw [if_pos h3] at h
        by_cases h4 : value = ("none".toList) ∨ value = ("0".toList)
        · rw [if_pos h4] at h
          have h5 : (Except.ok ((t.set .incoh_elas (.boolV false)).set .inelas
              (.strV ("none".toList))) : Except ErrKind Table) = .ok t' := h
          simp only [Except.ok.injEq] at h5
          rw [← h5]
          exact WF_set _ _ _ (WF_set _ _ _ hWF (WFv_bool_incoh false)) WFv_inelas_none
        · rw [if_neg h4] at h
          exact Except.noConfusion h
      · rw [if_neg h3] at h
        exact setValByStrCore_WF t name value t' h hWF hOK htr

theorem processSeg_WF (t : Table) (seg : Str) (t' : Table)
    (hch : ∀ c ∈ seg, gateChar c = true ∧ c ≠ ';')
    (h : processSeg t seg = .ok t') (hWF : WF t) : WF t' := by
  replace h : (if trim seg = [] then Except.ok t
      else if trim seg = ("ignorefilecfg".toList) then Except.error ErrKind.badInput
      else match splitCh '=' (trim seg) with
        | [k, v] => if trim k = [] then Except.error ErrKind.badInput
            else setValByStr t (trim k) (trim v)
        | _ => Except.error ErrKind.badInput) = Except.ok t' := h
  by_cases h0 : trim seg = []
  · rw [if_pos h0] at h
    simp only [Except.ok.injEq] at h
    rw [← h]
    exact hWF
  · rw [if_neg h0] at h
    by_cases h1 : trim seg = ("ignorefilecfg".toList)
    · rw [if_pos h1] at h
      exact Except.noConfusion h
    · rw [if_neg h1] at h
      rcases hs : splitCh '=' (trim seg) with _ | ⟨k, rest⟩
      · rw [hs] at h
        exact Except.noConfusion
          (h : (Except.error ErrKind.badInput : Except ErrKind Table) = .ok t')
      · rcases rest with _ | ⟨v, rest2⟩
        · rw [hs] at h
          exact Except.noConfusion
            (h : (Except.error ErrKind.badInput : Except ErrKind Table) = .ok t')
        · rcases rest2 with _ | _
          · replace h : (if trim k = [] then Except.error ErrKind.badInput
                else setValByStr t (trim k) (trim v)) = Except.ok t' := by
              rw [hs] at h
              exact h
            by_cases h2 : trim k = []
            · rw [if_pos h2] at h
              exact Except.noConfusion h
            · rw [if_neg h2] at h
              refine setValByStr_WF t (trim k) (trim v) t' h hWF ?_ (trim_idem v)
              apply strOK_of_mem
              intro c hc
              have hcv : c ∈ v := mem_trim v c hc
              obtain ⟨hne, hmem⟩ := splitCh_sepFree '=' (trim seg) v
                (by rw [hs]; exact List.mem_cons_of_mem k (List.mem_cons_self v [])) c hcv
              have hcs : c ∈ seg := mem_trim seg c hmem
              obtain ⟨hg, hsemi⟩ := hch c hcs
              exact strOKchar_make c hg hsemi hne
          · rw [hs] at h
            exact Except.noConfusion
              (h : (Except.error ErrKind.badInput : Except ErrKind Table) = .ok t')

theorem processSegs_WF (segs : List Str) :
    ∀ (t t' : Table), (∀ sg ∈ segs, ∀ c ∈ sg, gateChar c = true ∧ c ≠ ';') →
      processSegs t segs = .ok t' → WF t → WF t' := by
  induction segs with
  | nil =>
    intro t t' _ h hWF
    replace h : (Except.ok t : Except ErrKind Table) = Except.ok t' := h
    simp only [Except.ok.injEq] at h
    rw [← h]
    exact hWF
  | cons sg rest ih =>
    intro t t' hch h hWF
    replace h : (match processSeg t sg with
      | .error e => Except.error e
      | .ok t1 => processSegs t1 rest) = Except.ok t' := h
    rcases hp : processSeg t sg with e | t1
    · rw [hp] at h
      exact Except.noConfusion (h : (Except.error e : Except ErrKind Table) = .ok t')
    · rw [hp] at h
      exact ih t1 t' (fun s hs => hch s (List.mem_cons_of_mem sg hs))
        (h : processSegs t1 rest = .ok t')
        (processSeg_WF t sg t1 (hch sg (List.mem_cons_self sg rest)) hp hWF)

/-- Every table produced by a successful applyStrCfg on a well-formed table
is well formed. -/
theorem applyStrCfg_WF (t : Table) (s : Str) (t' : Table)
    (hWF : WF t) (h : applyStrCfg t s = .ok t') : WF t' := by
  rw [applyStrCfg] at h
  cases hA : isSimpleASCII s true true
  · rw [hA] at h
    exact Except.noConfusion
      (h : (Except.error ErrKind.badInput : Except ErrKind Table) = .ok t')
  · rw [hA] at h
    cases hB : containsAny s forbiddenCfgChars
    · rw [hB] at h
      replace h : processSegs t (splitCh ';' s) = Except.ok t' := h
      have hgate := gate_chars s hA hB
      refine processSegs_WF (splitCh ';' s) t t' ?_ h hWF
      intro sg hsg c hc
      obtain ⟨hne, hmem⟩ := splitCh_sepFree ';' s sg hsg c hc
      exact ⟨hgate c hmem, hne⟩
    · rw [hB] at h
      exact Except.noConfusion
        (h : (Except.error ErrKind.badInput : Except ErrKind Table) = .ok t')

/-- A stored value's representation can only be empty for a string-typed
parameter (the Bool form of the condition, decidable on concrete tables). -/
def okRepB (p : Param) : Option PValue → Bool
  | none => true
  | some pv => !(pvalToStrrep false pv).isEmpty || decide (partype p = VType.tStr)

/-- The name=value entries emitted by toStrCfg for the given parameters. -/
def entriesFor (t : Table) (l : List Param) : List Str :=
  l.filterMap fun p => (t p).map fun pv => parname p ++ '=' :: pvalToStrrep false pv

/-- Copying the set parameters of one table onto another, in order. -/
def copyOn (b t : Table) : List Param → Table
  | [] => b
  | p :: rest =>
    copyOn (match t p with | some pv => b.set p pv | none => b) t rest

theorem toStrCfg_entries (t : Table) :
    toStrCfg t = joinSep [';'] (entriesFor t allParams) := rfl

theorem allParams_complete : ∀ q : Param, q ∈ allParams := by
  intro q
  cases q <;> decide

theorem setValByStrCore_entry (b : Table) (p : Param) (pv : PValue)
    (hv : WFv p pv) (hgood : pvalToStrrep false pv = [] → partype p = VType.tStr) :
    setValByStrCore b (parname p) (pvalToStrrep false pv) = .ok (b.set p pv) := by
  have hcond : ¬(pvalToStrrep false pv = [] ∧ partype p ≠ VType.tStr) := by
    rintro ⟨ha, hb⟩
    exact hb (hgood ha)
  have h1 : setValByStrCore b (parname p) (pvalToStrrep false pv)
      = (if pvalToStrrep false pv = [] ∧ partype p ≠ VType.tStr
         then Except.error ErrKind.badInput
         else (mkSetPValue (partype p) (unitsFor p) (pvalToStrrep false pv)).map (b.set p)) := by
    rw [setValByStrCore, parname_lookup p]
  rw [h1, if_neg hcond, hv.1]
  rfl

theorem setValByStr_entry (b : Table) (p : Param) (pv : PValue)
    (hv : WFv p pv) (hgood : pvalToStrrep false pv = [] → partype p = VType.tStr) :
    setValByStr b (parname p) (pvalToStrrep false pv) = .ok (b.set p pv) := by
  obtain ⟨-, -, -, hb1, hb2, hb3, -⟩ := parname_facts p
  rw [setValByStr, if_neg hb1, if_neg hb2, if_neg hb3]
  exact setValByStrCore_entry b p pv hv hgood

theorem entry_trim (p : Param) (rep : Str) (htr : trim rep = rep) :
    trim (parname p ++ '=' :: rep) = parname p ++ '=' :: rep := by
  obtain ⟨-, -, hne, -, -, -, hws⟩ := parname_facts p
  apply trim_eq_self
  · intro c hc
    rw [headAppend _ _ hne] at hc
    have hcm : c ∈ parname p := head?_mem' _ c hc
    have h2 := List.all_eq_true.mp hws c hcm
    simpa using h2
  · intro c hc
    rw [lastAppend _ _ (List.cons_ne_nil '=' rep)] at hc
    cases rep with
    | nil =>
      have hc2 : some '=' = some c := hc
      injection hc2 with hc3
      rw [← hc3]
      decide
    | cons r0 rrest =>
      rw [getLast?_cons_ne '=' (r0 :: rrest) (List.cons_ne_nil r0 rrest)] at hc
      exact trim_last (r0 :: rrest) c (by rw [htr]; exact hc)

theorem entry_has_eq (p : Param) (rep : Str) :
    '=' ∈ parname p ++ '=' :: rep :=
  List.mem_append.mpr (Or.inr (List.mem_cons_self '=' rep))

theorem splitCh_entry (p : Param) (rep : Str) (hOK : strOK rep = true) :
    splitCh '=' (parname p ++ '=' :: rep) = [parname p, rep] := by
  rw [splitCh]
  have h1 := splitP_append_sep (fun c => decide (c = '=')) (parname p) rep '='
    (fun c hc =>
      decide_eq_false (strOKchar_parts c (strOK_mem _ (parname_facts p).1 c hc)).2.2)
    (by decide)
  rw [h1]
  rw [splitP_single _ rep
    (fun c hc => decide_eq_false (strOKchar_parts c (strOK_mem rep hOK c hc)).2.2)]

theorem processSeg_entry (b : Table) (p : Param) (pv : PValue)
    (hv : WFv p pv) (hgood : pvalToStrrep false pv = [] → partype p = VType.tStr) :
    processSeg b (parname p ++ '=' :: pvalToStrrep false pv) = .ok (b.set p pv) := by
  obtain ⟨hr1, hr2, hr3⟩ := hv
  obtain ⟨hpOK, hptr, hpne, -, -, -, -⟩ := parname_facts p
  have htr := entry_trim p (pvalToStrrep false pv) hr3
  have hstep : processSeg b (parname p ++ '=' :: pvalToStrrep false pv)
      = (if trim (parname p ++ '=' :: pvalToStrrep false pv) = [] then Except.ok b
         else if trim (parname p ++ '=' :: pvalToStrrep false pv) = ("ignorefilecfg".toList)
           then Except.error ErrKind.badInput
         else match splitCh '=' (trim (parname p ++ '=' :: pvalToStrrep false pv)) with
           | [k, v] => if trim k = [] then Except.error ErrKind.badInput
               else setValByStr b (trim k) (trim v)
           | _ => Except.error ErrKind.badInput) := rfl
  have hni : ¬(parname p ++ '=' :: pvalToStrrep false pv = ("ignorefilecfg".toList)) := by
    intro he
    have h2 : '=' ∈ ("ignorefilecfg".toList) := by
      rw [← he]
      exact entry_has_eq p _
    revert h2
    decide
  rw [hstep, htr, if_neg (by simp [hpne]), if_neg hni, splitCh_entry p _ hr2]
  show (if trim (parname p) = [] then (Except.error ErrKind.badInput : Except ErrKind Table)
      else setValByStr b (trim (parname p)) (trim (pvalToStrrep false pv)))
    = Except.ok (b.set p pv)
  rw [hptr, hr3, if_neg hpne]
  exact setValByStr_entry b p pv ⟨hr1, hr2, hr3⟩ hgood

theorem processSegs_entries (t : Table) (hWF : WF t)
    (hgood : ∀ p, okRepB p (t p) = true) :
    ∀ (l : List Param) (b : Table),
      processSegs b (entriesFor t l) = .ok (copyOn b t l) := by
  intro l
  induction l with
  | nil =>
    intro b
    rfl
  | cons p rest ih =>
    intro b
    rcases hp : t p with _ | pv
    · have he : entriesFor t (p :: rest) = entriesFor t rest := by
        simp only [entriesFor, List.filterMap_cons, hp, Option.map_none']
      have hc : copyOn b t (p :: rest) = copyOn b t rest := by
        rw [copyOn, hp]
      rw [he, hc]
      exact ih b
    · have he : entriesFor t (p :: rest)
          = (parname p ++ '=' :: pvalToStrrep false pv) :: entriesFor t rest := by
        simp only [entriesFor, List.filterMap_cons, hp, Option.map_some']
      have hc : copyOn b t (p :: rest) = copyOn (b.set p pv) t rest := by
        rw [copyOn, hp]
      have hgp : pvalToStrrep false pv = [] → partype p = VType.tStr := by
        intro h0
        have h1 := hgood p
        rw [hp, okRepB, h0] at h1
        simpa using h1
      have hps : processSegs b ((parname p ++ '=' :: pvalToStrrep false pv) :: entriesFor t rest)
          = match processSeg b (parname p ++ '=' :: pvalToStrrep false pv) with
            | .error e => Except.error e
            | .ok t1 => processSegs t1 (entriesFor t rest) := rfl
      rw [he, hc, hps, processSeg_entry b p pv (hWF p pv hp) hgp]
      exact ih (b.set p pv)

theorem copyOn_none (t : Table) (q : Param) (hq : t q = none) :
    ∀ (l : List Param) (b : Table), copyOn b t l q = b q := by
  intro l
  induction l with
  | nil =>
    intro b
    rfl
  | cons p rest ih =>
    intro b
    rcases hp : t p with _ | pv
    · have h2 : copyOn b t (p :: rest) q = copyOn b t rest q := by rw [copyOn, hp]
      rw [h2]
      exact ih b
    · have hpq : p ≠ q := by
        intro he
        rw [he, hq] at hp
        exact Option.noConfusion hp
      have h2 : copyOn b t (p :: rest) q = copyOn (b.set p pv) t rest q := by rw [copyOn, hp]
      rw [h2, ih (b.set p pv), Table.set, Function.update_noteq (Ne.symm hpq)]

theorem copyOn_notmem (t : Table) (q : Param) :
    ∀ (l : List Param) (b : Table), q ∉ l → copyOn b t l q = b q := by
  intro l
  induction l with
  | nil =>
    intro b _
    rfl
  | cons p rest ih =>
    intro b hq
    have hqp : q ≠ p := fun he => hq (he ▸ List.mem_cons_self p rest)
    have hqr : q ∉ rest := fun hm => hq (List.mem_cons_of_mem p hm)
    rcases hp : t p with _ | pv
    · have h2 : copyOn b t (p :: rest) q = copyOn b t rest q := by rw [copyOn, hp]
      rw [h2]
      exact ih b hqr
    · have h2 : copyOn b t (p :: rest) q = copyOn (b.set p pv) t rest q := by rw [copyOn, hp]
      rw [h2, ih (b.set p pv) hqr, Table.set, Function.update_noteq hqp]

theorem copyOn_some (t : Table) (q : Param) (pv : PValue) (hq : t q = some pv) :
    ∀ (l : List Param) (b : Table), q ∈ l → copyOn b t l q = some pv := by
  intro l
  induction l with
  | nil =>
    intro b h
    exact absurd h (List.not_mem_nil q)
  | cons p rest ih =>
    intro b hmem
    by_cases hqr : q ∈ rest
    · rcases hp : t p with _ | pv'
      · have h2 : copyOn b t (p :: rest) q = copyOn b t rest q := by rw [copyOn, hp]
        rw [h2]
        exact ih b hqr
      · have h2 : copyOn b t (p :: rest) q = copyOn (b.set p pv') t rest q := by
          rw [copyOn, hp]
        rw [h2]
        exact ih (b.set p pv') hqr
    · have hqp : q = p := by
        rcases List.mem_cons.mp hmem with h | h
        · exact h
        · exact absurd h hqr
      subst hqp
      have h2 : copyOn b t (q :: rest) q = copyOn (b.set q pv) t rest q := by rw [copyOn, hq]
      rw [h2, copyOn_notmem t q rest (b.set q pv) hqr, Table.set, Function.update_same]

theorem copyOn_all (t : Table) : copyOn emptyTable t allParams = t := by
  funext q
  rcases hq : t q with _ | pv
  · rw [copyOn_none t q hq allParams emptyTable]
    rfl
  · rw [copyOn_some t q pv hq allParams emptyTable (allParams_complete q)]

theorem entriesFor_mem (t : Table) (l : List Param) (x : Str)
    (hx : x ∈ entriesFor t l) :
    ∃ p pv, t p = some pv ∧ x = parname p ++ '=' :: pvalToStrrep false pv := by
  rw [entriesFor] at hx
  obtain ⟨p, hp, hfx⟩ := List.mem_filterMap.mp hx
  rcases hq : t p with _ | pv
  · rw [hq] at hfx
    exact Option.noConfusion hfx
  · rw [hq] at hfx
    refine ⟨p, pv, hq, ?_⟩
    have h2 : some (parname p ++ '=' :: pvalToStrrep false pv) = some x := hfx
    injection h2 with h3
    exact h3.symm

theorem entry_chars (p : Param) (pv : PValue) (hv : WFv p pv) :
    ∀ c ∈ parname p ++ '=' :: pvalToStrrep false pv, gateChar c = true ∧ c ≠ ';' := by
  intro c hc
  rcases List.mem_append.mp hc with h | h
  · obtain ⟨hg, hs, -⟩ := strOKchar_parts c (strOK_mem _ (parname_facts p).1 c h)
    exact ⟨hg, hs⟩
  · rcases List.mem_cons.mp h with h | h
    · subst h
      exact ⟨by decide, by decide⟩
    · obtain ⟨hg, hs, -⟩ := strOKchar_parts c (strOK_mem _ hv.2.1 c h)
      exact ⟨hg, hs⟩

/-- The heart of the round-trip property: the serialized form of a
well-formed table whose value representations are non-empty (outside
string parameters) re-parses from scratch to exactly the same table. -/
theorem applyStrCfg_toStrCfg (t : Table) (hWF : WF t)
    (hgood : ∀ p, okRepB p (t p) = true) :
    applyStrCfg emptyTable (toStrCfg t) = .ok t := by
  have hgate : ∀ c ∈ toStrCfg t, gateChar c = true := by
    intro c hc
    rw [toStrCfg_entries] at hc
    rcases joinSep_chars _ _ c hc with h | ⟨x, hx, hcx⟩
    · have h2 : c = ';' := by simpa using h
      rw [h2]
      decide
    · obtain ⟨p, pv, hp, hxe⟩ := entriesFor_mem t allParams x hx
      subst hxe
      exact (entry_chars p pv (hWF p pv hp) c hcx).1
  obtain ⟨hg1, hg2⟩ := chars_gate _ hgate
  rw [applyStrCfg, hg1, hg2]
  rcases hE : entriesFor t allParams with _ | ⟨e0, erest⟩
  · have hnone : ∀ p, t p = none := by
      intro p
      rcases hq : t p with _ | pv
      · rfl
      · exfalso
        have hmem : (parname p ++ '=' :: pvalToStrrep false pv) ∈ entriesFor t allParams :=
          List.mem_filterMap.mpr ⟨p, allParams_complete p, by rw [hq]; rfl⟩
        rw [hE] at hmem
        exact List.not_mem_nil _ hmem
    have ht : t = emptyTable := funext fun p => hnone p
    rw [toStrCfg_entries, hE, ht]
    rfl
  · have hfree : ∀ x ∈ entriesFor t allParams, ∀ c ∈ x,
        (fun c => decide (c = ';')) c = false := by
      intro x hx c hcx
      obtain ⟨p, pv, hp, hxe⟩ := entriesFor_mem t allParams x hx
      subst hxe
      exact decide_eq_false (entry_chars p pv (hWF p pv hp) c hcx).2
    have hsplit : splitCh ';' (joinSep [';'] (entriesFor t allParams))
        = entriesFor t allParams := by
      rw [splitCh]
      exact splitP_joinSep _ ';' _ (by decide) (by rw [hE]; simp) hfree
    rw [toStrCfg_entries, hsplit, processSegs_entries t hWF hgood allParams emptyTable,
      copyOn_all]
    rfl

/-! ## The claims -/

/-- C1, counterexample to the claim as stated: the configuration string
atomdb=@ is accepted and stores an empty atomdb value, but its serialized
form atomdb= is rejected on re-parse, because the empty-value check of
setValByStr exempts only string-typed parameters. -/
theorem C1_counterexample :
    ∃ t, applyStrCfg emptyTable (("atomdb=@".toList)) = .ok t
      ∧ applyStrCfg emptyTable (toStrCfg t) = .error .badInput := by
  refine ⟨Table.set emptyTable .atomdb (.atomdbV [] []), ?_, ?_⟩
  · with_unfolding_all rfl
  · with_unfolding_all rfl

/-- C1 (amended): for every configuration string accepted by applyStrCfg
from the empty table, serializing the result with toStrCfg and parsing it
back from the empty table yields exactly the same parameter table — and
hence agreement on every typed get-accessor — provided no stored
non-string value serializes to the empty string (okRepB); only the
degenerate empty atomdb value violates that proviso. -/
theorem C1_roundtrip (s : Str) (t : Table)
    (hp : applyStrCfg emptyTable s = .ok t)
    (hgood : ∀ p, okRepB p (t p) = true) :
    applyStrCfg emptyTable (toStrCfg t) = .ok t :=
  applyStrCfg_toStrCfg t (applyStrCfg_WF emptyTable s t WF_empty hp) hgood

/-- Witness for C1 at the accepted configuration string temp=300. -/
theorem C1_roundtrip_witness :
    applyStrCfg emptyTable
        (toStrCfg (Table.set emptyTable .temp (.dblV ⟨300, 0⟩ ("300".toList))))
      = .ok (Table.set emptyTable .temp (.dblV ⟨300, 0⟩ ("300".toList))) :=
  C1_roundtrip ("temp=300".toList) _ (by with_unfolding_all rfl) (by decide)

/-- C3 (code bug): checkConsistency accepts temp = 0 — its guard only
rejects values that are both ≠ -1 and (< 0 or > 1e5) — although 0 lies
outside the documented domain noDomain = {-1} ∪ (0, 1e5]. -/
theorem C3_temp_zero :
    checkConsistencyTempPart
        (Table.set emptyTable .temp (.dblV (DVal.ofQ 0) (("0".toList)))) = .ok ()
    ∧ tempCheckRejects 0 = false
    ∧ ¬((0 : ℚ) = -1 ∨ (0 < (0 : ℚ) ∧ (0 : ℚ) ≤ 100000)) := by
  refine ⟨by with_unfolding_all rfl, by with_unfolding_all rfl, ?_⟩
  rintro (h | ⟨h, -⟩)
  · exact absurd h (by norm_num)
  · exact absurd h (by norm_num)

/-- C7: the tabulated unit conversions are applied when a double parameter
is set from a string with a unit suffix: 20C gives 273.15 + 20 = 293.15
kelvin, and 60arcmin gives the pi-coefficient 60/10800 radians. -/
theorem C7_units :
    (∃ t, applyStrCfg emptyTable (("temp=20C".toList)) = .ok t
       ∧ get_temp t = DVal.ofQ (29315 / 100))
    ∧ (∃ t, applyStrCfg emptyTable (("mos=60arcmin".toList)) = .ok t
       ∧ get_mos t = .ok ⟨0, 60 / 10800⟩) := by
  constructor
  · refine ⟨Table.set emptyTable .temp (.dblV ⟨5863 / 20, 0⟩ (("20C".toList))), ?_, ?_⟩
    · with_unfolding_all rfl
    · with_unfolding_all rfl
  · refine ⟨Table.set emptyTable .mos (.dblV ⟨0, 1 / 180⟩ (("60arcmin".toList))), ?_, ?_⟩
    · with_unfolding_all rfl
    · with_unfolding_all rfl

/-- C10, counterexample to the claim as stated: a trailing semicolon is
indeed accepted, but an error is not raised only for segments that fail to
be of the key=value form: temp=x is a key=value segment and still raises
BadInput (its value fails to parse). -/
theorem C10_counterexample :
    applyStrCfg emptyTable (("temp=300;".toList))
      = .ok (Table.set emptyTable .temp (.dblV ⟨300, 0⟩ (("300".toList))))
    ∧ applyStrCfg emptyTable (("temp=x".toList)) = .error .badInput := by
  constructor
  · with_unfolding_all rfl
  · with_unfolding_all rfl

/-- C10 (amended): segments of applyStrCfg that trim to nothing are
silently skipped, so trailing or repeated semicolons are accepted; errors
can still arise from non-empty segments, including well-formed key=value
segments whose value is rejected by the parameter's parser. -/
theorem C10_empty_segments :
    (∀ (t : Table) (seg : Str), trim seg = [] → processSeg t seg = .ok t)
    ∧ applyStrCfg emptyTable (("temp=300;;".toList))
        = .ok (Table.set emptyTable .temp (.dblV ⟨300, 0⟩ (("300".toList)))) := by
  constructor
  · intro t seg h0
    have hstep : processSeg t seg
        = (if trim seg = [] then Except.ok t
           else if trim seg = ("ignorefilecfg".toList) then Except.error ErrKind.badInput
           else match splitCh '=' (trim seg) with
             | [k, v] => if trim k = [] then Except.error ErrKind.badInput
                 else setValByStr t (trim k) (trim v)
             | _ => Except.error ErrKind.badInput) := rfl
    rw [hstep, if_pos h0]
  · with_unfolding_all rfl

/-- Witness for C10 at a whitespace-only segment. -/
theorem C10_empty_segments_witness :
    processSeg emptyTable (("  ".toList)) = .ok emptyTable :=
  C10_empty_segments.1 emptyTable (("  ".toList)) (by decide)

/-- Under version 1 or 2, any custom section marker is rejected, whatever
its suffix: the lookup name CUSTOM is not registered. -/
theorem custom_marker_lowver (rest : Str) (v : Nat) (hv : v = 1 ∨ v = 2) :
    processSectionMarker v [] (("@CUSTOM_".toList) ++ rest) = .error .badInput := by
  have key : ∀ (ns : Str), ns = ("CUSTOM_".toList) ++ rest →
      processSectionMarker v [] ('@' :: ns) = .error .badInput := by
    intro ns hns
    have hstep : processSectionMarker v [] ('@' :: ns)
        = (if ns = [] then Except.error ErrKind.badInput
           else
             if (!(strStarts ns ("CUSTOM_".toList) || decide (ns = ("DYNINFO".toList)))) = true
                 ∧ (List.any ([] : List Str) fun x => decide (x = ns)) = true
               then Except.error ErrKind.badInput
             else
               if (sectionNames v).any (fun x => decide (x =
                   if strStarts ns ("CUSTOM_".toList)
                   then ("CUSTOM".toList) else ns)) then
                 if strStarts ns ("CUSTOM_".toList) = true
                     ∧ ns.length ≤ 7
                   then Except.error ErrKind.badInput
                 else Except.ok (ns,
                   if strStarts ns ("CUSTOM_".toList) || decide (ns = ("DYNINFO".toList))
                   then ([] : List Str) else ns :: [])
               else Except.error ErrKind.badInput) := rfl
    have hcust : strStarts ns ("CUSTOM_".toList) = true := by
      rw [hns, strStarts, takeLenAppend]
      simp
    have hne : ¬(ns = []) := by
      rw [hns]
      simp
    have hsec : ((sectionNames v).any fun x => decide (x = ("CUSTOM".toList))) = false := by
      rcases hv with rfl | rfl <;> decide
    rw [hstep, if_neg hne, hcust]
    rw [if_neg (by simp)]
    simp only [Bool.true_or, if_true]
    rw [hsec]
    rfl
  exact key _ rfl

/-- C5: the version gates of section dispatch: under version 1 the markers
at-DYNINFO and at-DENSITY are rejected, under versions 1 and 2 at-ATOMDB
and every at-CUSTOM_* marker are rejected, and at or above the gate these
markers are accepted. -/
theorem C5_version_gates :
    processSectionMarker 1 [] (("@DYNINFO".toList)) = .error .badInput
    ∧ processSectionMarker 1 [] (("@DENSITY".toList)) = .error .badInput
    ∧ processSectionMarker 1 [] (("@ATOMDB".toList)) = .error .badInput
    ∧ processSectionMarker 2 [] (("@ATOMDB".toList)) = .error .badInput
    ∧ (∀ rest : Str,
        processSectionMarker 1 [] (("@CUSTOM_".toList) ++ rest) = .error .badInput)
    ∧ (∀ rest : Str,
        processSectionMarker 2 [] (("@CUSTOM_".toList) ++ rest) = .error .badInput)
    ∧ processSectionMarker 2 [] (("@DYNINFO".toList)) = .ok (("DYNINFO".toList), [])
    ∧ processSectionMarker 2 [] (("@DENSITY".toList))
        = .ok (("DENSITY".toList), [("DENSITY".toList)])
    ∧ processSectionMarker 3 [] (("@ATOMDB".toList))
        = .ok (("ATOMDB".toList), [("ATOMDB".toList)])
    ∧ processSectionMarker 3 [] (("@CUSTOM_X".toList)) = .ok (("CUSTOM_X".toList), []) :=
  ⟨by decide, by decide, by decide, by decide,
    fun rest => custom_marker_lowver rest 1 (Or.inl rfl),
    fun rest => custom_marker_lowver rest 2 (Or.inr rfl),
    by decide, by decide, by decide, by decide⟩

/-- C9, counterexample to the claim as stated: the at-ATOMPOSITIONS
handler has no nodefaults rule at all — under the v3 grammar the literal
nodefaults is a valid element label, so a nodefaults line with coordinates
is accepted even after another line has been stored. -/
theorem C9_counterexample :
    handleATOMPOS 3 [(("Al".toList), (0, 0, 0))]
        [("nodefaults".toList), ("0".toList), ("0".toList), ("0".toList)]
      = .ok [(("Al".toList), (0, 0, 0)), (("nodefaults".toList), (0, 0, 0))] := by
  with_unfolding_all rfl

/-- C9 (amended): the nodefaults-only-first rule holds for the atomdb
configuration parameter (ValAtomDB::set) and for the at-ATOMDB section
(whole-record validation), while the handlers also enforce element-name
validation of other first tokens; at-ATOMPOSITIONS has no such rule (see
the counterexample). -/
theorem C9_nodefaults :
    (∀ (i : Nat) (rest : List (List Str)), 0 < i →
        atomdbAux i ([ndLit] :: rest) = .error .badInput)
    ∧ atomdbAux 0 [[ndLit]] = .ok [[ndLit]]
    ∧ (∀ (x : List Str) (rest : List (List Str)), [ndLit] ∈ rest →
        validateAtomDBSection (x :: rest) = .error .badInput)
    ∧ handleATOMDB 3 [] [ndLit] = .ok [[ndLit]]
    ∧ handleATOMDB 3 [[ndLit]] [("1x".toList)] = .error .badInput := by
  refine ⟨?_, by decide, ?_, by decide, by decide⟩
  · intro i rest hi
    have hstep : atomdbAux i ([ndLit] :: rest)
        = (if ([ndLit] : List Str) = [] then atomdbAux i rest
           else if !(([ndLit] : List Str).all atomdbWordOK) then Except.error ErrKind.badInput
           else if !(validateAtomDBLineB [ndLit]) then Except.error ErrKind.badInput
           else if ([ndLit] : List Str) = [ndLit] ∧ 0 < i then Except.error ErrKind.badInput
           else (atomdbAux (i + 1) rest).map ([ndLit] :: ·)) := rfl
    rw [hstep, if_neg (by decide), if_neg (by decide), if_neg (by decide),
      if_pos ⟨rfl, hi⟩]
  · intro x rest hmem
    have hstep : validateAtomDBSection (x :: rest)
        = (if rest.any (fun l => decide (l = [ndLit])) then Except.error ErrKind.badInput
           else Except.ok ()) := rfl
    have hc : (rest.any fun l => decide (l = [ndLit])) = true :=
      List.any_eq_true.mpr ⟨[ndLit], hmem, by decide⟩
    rw [hstep, if_pos hc]

/-- Witness for C9 at a concrete second-position nodefaults line. -/
theorem C9_nodefaults_witness :
    atomdbAux 1 [[ndLit]] = .error .badInput
    ∧ validateAtomDBSection [[("Al".toList)], [ndLit]] = .error .badInput :=
  ⟨C9_nodefaults.1 1 [] (by decide),
   C9_nodefaults.2.2.1 [("Al".toList)] [[ndLit]] (by decide)⟩

/-- C8: a VrN token of a at-DYNINFO numeric field contributes exactly N
copies of V, a repeat count below 2 raises BadInput, and the line
alphagrid 0 0.1 0.2 0.2r5 0.3 yields the vector with six copies of 0.2
(one plain plus five from the repeat token). -/
theorem C8_repeat :
    (∀ (allowneg : Bool) (tok : Str) (q : ℚ) (n : Nat) (rest : List Str) (vs : List ℚ),
        parseDynToken allowneg tok = .ok (q, n) →
        parseDynTokens allowneg rest = .ok vs →
        parseDynTokens allowneg (tok :: rest) = .ok (List.replicate n q ++ vs))
    ∧ (∀ (allowneg : Bool) (tok : Str) (i : Nat) (z : Int),
        (tok.findIdx? fun c => decide (c = 'r')) = some i →
        str2intZ (tok.drop (i + 1)) = some z → z < 2 →
        parseDynToken allowneg tok = .error .badInput)
    ∧ parseDynTokens false (wsSplit (("0 0.1 0.2 0.2r5 0.3".toList)))
        = .ok [0, 1/10, 1/5, 1/5, 1/5, 1/5, 1/5, 1/5, 3/10] := by
  refine ⟨?_, ?_, by with_unfolding_all rfl⟩
  · intro allowneg tok q n rest vs h1 h2
    have hstep : parseDynTokens allowneg (tok :: rest)
        = (match parseDynToken allowneg tok with
           | .error e => Except.error e
           | .ok vn => (parseDynTokens allowneg rest).map
               fun vs => List.replicate vn.2 vn.1 ++ vs) := rfl
    rw [hstep, h1, h2]
    rfl
  · intro allowneg tok i z hfind hz hlt
    have hstep : parseDynToken allowneg tok
        = (match (match tok.findIdx? fun c => decide (c = 'r') with
            | none => Except.ok 1
            | some i =>
              match str2intZ (tok.drop (i + 1)) with
              | none => Except.error ErrKind.badInput
              | some n => if n < 2 then Except.error ErrKind.badInput
                  else Except.ok n.toNat) with
           | .error e => Except.error e
           | .ok n =>
             match str2dblQ (match tok.findIdx? fun c => decide (c = 'r') with
                 | some i => tok.take i
                 | none => tok) with
             | none => Except.error ErrKind.badInput
             | some v => if !allowneg ∧ v < 0 then Except.error ErrKind.badInput
                 else Except.ok (v, n)) := rfl
    have hrep : (match tok.findIdx? fun c => decide (c = 'r') with
        | none => (Except.ok 1 : Except ErrKind Nat)
        | some i =>
          match str2intZ (tok.drop (i + 1)) with
          | none => Except.error ErrKind.badInput
          | some n => if n < 2 then Except.error ErrKind.badInput else Except.ok n.toNat)
        = Except.error ErrKind.badInput := by
      rw [hfind]
      show (match str2intZ (tok.drop (i + 1)) with
        | none => (Except.error ErrKind.badInput : Except ErrKind Nat)
        | some n => if n < 2 then Except.error ErrKind.badInput else Except.ok n.toNat)
        = Except.error ErrKind.badInput
      rw [hz]
      show (if z < 2 then (Except.error ErrKind.badInput : Except ErrKind Nat)
          else Except.ok z.toNat) = Except.error ErrKind.badInput
      rw [if_pos hlt]
    rw [hstep, hrep]

/-- Witness for C8 at the concrete tokens 2 and 2r1. -/
theorem C8_repeat_witness :
    parseDynTokens false [("2".toList)] = .ok (List.replicate 1 2 ++ [])
    ∧ parseDynToken false (("2r1".toList)) = .error .badInput :=
  ⟨C8_repeat.1 false ("2".toList) 2 1 [] [] (by with_unfolding_all rfl) rfl,
   C8_repeat.2.1 false (("2r1".toList)) 1 1 (by decide) (by decide) (by decide)⟩

set_option maxRecDepth 20000 in
/-- C4, counterexample to the claim as stated: the cache signature renders
a stored double with 16 significant digits (setprecision(16)), not the 17
of %.17g: for the stored value 1/3 the signature value has sixteen 3s and
differs from the 17-digit rendering. -/
theorem C4_counterexample :
    getCacheSignature
        (Table.set emptyTable .temp
          (.dblV (DVal.ofQ (1 / 3)) (("0.333333333333333333".toList))))
        [("temp".toList)]
      = .ok (("temp=0.3333333333333333".toList))
    ∧ DVal.fmt 16 (DVal.ofQ (1 / 3)) ≠ DVal.fmt 17 (DVal.ofQ (1 / 3)) := by
  constructor
  · with_unfolding_all rfl
  · with_unfolding_all decide

/-- C4 (amended): for a set double-typed parameter, getCacheSignature
emits the high-precision 16-significant-digit rendering of the stored
value (the forcache path of to_strrep, setprecision(16)), ignoring any
remembered original text. -/
theorem C4_cache_sig (t : Table) (p : Param) (v : DVal) (o : Str)
    (h : t p = some (.dblV v o)) :
    getCacheSignature t [parname p] = .ok (parname p ++ '=' :: DVal.fmt 16 v) := by
  have e1 : getCacheSignature t [parname p]
      = (getCacheSignature.go t ((sortStrs [parname p]).dedup)).map (joinSep [';']) := rfl
  have e2 : (sortStrs [parname p]).dedup = [parname p] := by
    show List.dedup [parname p] = [parname p]
    rw [List.dedup_cons_of_not_mem (by simp)]
    rfl
  have e3 : getCacheSignature.go t [parname p]
      = (match strNameToParIdx (parname p) with
         | none => Except.error ErrKind.badInput
         | some p' =>
           (getCacheSignature.go t []).map fun rs =>
             (parname p ++ '=' :: (match t p' with
               | some pv => pvalToStrrep true pv
               | none => ['<', '>'])) :: rs) := rfl
  rw [e1, e2, e3, parname_lookup p]
  show ((getCacheSignature.go t []).map fun rs =>
      (parname p ++ '=' :: (match t p with
        | some pv => pvalToStrrep true pv
        | none => ['<', '>'])) :: rs).map (joinSep [';'])
    = Except.ok (parname p ++ '=' :: DVal.fmt 16 v)
  rw [h]
  show ((getCacheSignature.go t []).map fun rs =>
      (parname p ++ '=' :: pvalToStrrep true (.dblV v o)) :: rs).map (joinSep [';'])
    = Except.ok (parname p ++ '=' :: DVal.fmt 16 v)
  rfl

/-- Witness for C4 at a table holding temp = 1. -/
theorem C4_cache_sig_witness :
    getCacheSignature (Table.set emptyTable .temp (.dblV (DVal.ofQ 1) (("1".toList))))
        [parname .temp]
      = .ok (parname .temp ++ '=' :: DVal.fmt 16 (DVal.ofQ 1)) :=
  C4_cache_sig _ .temp (DVal.ofQ 1) (("1".toList)) rfl

/-- C6: the constructor applies an embedded NCRYSTALMATCFG payload before
the user-supplied parameters, so the user value wins on conflict — with the
embedded temp=500K and the user temp=300K the observed temperature is
300 — and an input with two markers raises BadInput. -/
theorem C6_embedded_cfg :
    (∀ (lines : List Str) (extracfg fstr : Str) (t1 t2 : Table),
        extractFileCfgStr lines = .ok fstr → fstr ≠ [] →
        applyStrCfg emptyTable fstr = .ok t1 → extracfg ≠ [] →
        applyStrCfg t1 extracfg = .ok t2 →
        matCfgBuild lines extracfg = .ok t2)
    ∧ (∃ t, matCfgBuild [("# NCRYSTALMATCFG[temp=500K]".toList)]
          (("temp=300K".toList)) = .ok t
        ∧ get_temp t = DVal.ofQ 300)
    ∧ matCfgBuild [("NCRYSTALMATCFG[a]".toList), ("NCRYSTALMATCFG[b]".toList)] []
        = .error .badInput := by
  refine ⟨?_, ?_, by with_unfolding_all rfl⟩
  · intro lines extracfg fstr t1 t2 he hf h1 hx h2
    have hstep : matCfgBuild lines extracfg
        = (match extractFileCfgStr lines with
           | .error e => Except.error e
           | .ok fstr' =>
             match (if fstr' ≠ [] then applyStrCfg emptyTable fstr'
                 else Except.ok emptyTable) with
             | .error e => Except.error e
             | .ok t1' => if extracfg ≠ [] then applyStrCfg t1' extracfg
                 else Except.ok t1') := rfl
    rw [hstep, he]
    show (match (if fstr ≠ [] then applyStrCfg emptyTable fstr
        else Except.ok emptyTable) with
      | .error e => Except.error e
      | .ok t1' => if extracfg ≠ [] then applyStrCfg t1' extracfg
          else Except.ok t1') = Except.ok t2
    rw [if_pos hf, h1]
    show (if extracfg ≠ [] then applyStrCfg t1 extracfg else Except.ok t1)
      = Except.ok t2
    rw [if_pos hx, h2]
  · refine ⟨Table.set (Table.set emptyTable .temp (.dblV ⟨500, 0⟩ (("500K".toList))))
      .temp (.dblV ⟨300, 0⟩ (("300K".toList))), ?_, ?_⟩
    · with_unfolding_all rfl
    · with_unfolding_all rfl

/-- Witness for C6's general ordering statement at the concrete input of
its example. -/
theorem C6_embedded_cfg_witness :
    matCfgBuild [("# NCRYSTALMATCFG[temp=500K]".toList)] (("temp=300K".toList))
      = .ok (Table.set (Table.set emptyTable .temp (.dblV ⟨500, 0⟩ (("500K".toList))))
          .temp (.dblV ⟨300, 0⟩ (("300K".toList)))) :=
  C6_embedded_cfg.1 [("# NCRYSTALMATCFG[temp=500K]".toList)] (("temp=300K".toList))
    (("temp=500K".toList)) _ _
    (by with_unfolding_all rfl) (by decide)
    (by with_unfolding_all rfl) (by decide)
    (by with_unfolding_all rfl)

/-! ## List-indexing lemmas for the shared-handle world -/

theorem list_getq_lt {α : Type} (l : List α) (n : Nat) (x : α) (h : l[n]? = some x) :
    n < l.length := by
  by_contra hge
  rw [List.getElem?_eq_none (Nat.le_of_not_lt hge)] at h
  exact Option.noConfusion h

theorem list_set_get_ne {α : Type} : ∀ (l : List α) (i j : Nat) (a : α), i ≠ j →
    (l.set i a)[j]? = l[j]? := by
  intro l
  induction l with
  | nil =>
    intro i j a _
    simp
  | cons x t ih =>
    intro i j a hne
    cases i with
    | zero =>
      cases j with
      | zero => exact absurd rfl hne
      | succ jj => simp
    | succ ii =>
      cases j with
      | zero => simp
      | succ jj =>
        simp only [List.set_cons_succ, List.getElem?_cons_succ]
        exact ih ii jj a fun he => hne (by rw [he])

theorem list_set_get_eq {α : Type} : ∀ (l : List α) (i : Nat) (a : α), i < l.length →
    (l.set i a)[i]? = some a := by
  intro l
  induction l with
  | nil =>
    intro i a h
    simp at h
  | cons x t ih =>
    intro i a h
    cases i with
    | zero => simp
    | succ ii =>
      simp only [List.set_cons_succ, List.getElem?_cons_succ]
      exact ih ii a (by simp at h; omega)

theorem list_append_get {α : Type} : ∀ (l m : List α) (j : Nat), j < l.length →
    (l ++ m)[j]? = l[j]? := by
  intro l
  induction l with
  | nil =>
    intro m j h
    simp at h
  | cons x t ih =>
    intro m j h
    cases j with
    | zero => simp
    | succ jj =>
      simp only [List.cons_append, List.getElem?_cons_succ]
      exact ih m jj (by simp at h; omega)

/-- cow keeps the table stored at any index whose entry is shared or
different from the handle, and the returned handle never points at an index
it was required to leave alone. -/
theorem cow_facts (w : World) (hid h rc' : Nat) (tb : Table)
    (hw : w.impls[h]? = some (rc', tb)) (hh : hid ≠ h ∨ 2 ≤ rc') :
    (∃ rc2, ((cow w hid).1).impls[h]? = some (rc2, tb)) ∧ (cow w hid).2 ≠ h := by
  have hlt : h < w.impls.length := list_getq_lt _ _ _ hw
  rcases hq : w.impls[hid]? with _ | rt
  · have hc : cow w hid = (w, hid) := by rw [cow, hq]
    rw [hc]
    refine ⟨⟨rc', hw⟩, fun he => ?_⟩
    have he2 : hid = h := he
    rw [he2, hw] at hq
    exact Option.noConfusion hq
  · by_cases h1 : rt.1 = 1
    · have hc : cow w hid = (w, hid) := by
        rw [cow, hq]
        show (if rt.1 = 1 then (w, hid)
            else (⟨w.impls.set hid (rt.1 - 1, rt.2) ++ [(1, rt.2)]⟩, w.impls.length))
          = (w, hid)
        rw [if_pos h1]
      rw [hc]
      refine ⟨⟨rc', hw⟩, fun he => ?_⟩
      have he2 : hid = h := he
      rw [he2, hw] at hq
      injection hq with hq2
      rcases hh with hne | hrc
      · exact hne he2
      · rw [← hq2] at h1
        omega
    · have hc : cow w hid
          = (⟨(w.impls.set hid (rt.1 - 1, rt.2)) ++ [(1, rt.2)]⟩, w.impls.length) := by
        rw [cow, hq]
        show (if rt.1 = 1 then (w, hid)
            else (⟨w.impls.set hid (rt.1 - 1, rt.2) ++ [(1, rt.2)]⟩, w.impls.length))
          = (⟨w.impls.set hid (rt.1 - 1, rt.2) ++ [(1, rt.2)]⟩, w.impls.length)
        rw [if_neg h1]
      rw [hc]
      refine ⟨?_, (Nat.ne_of_lt hlt).symm⟩
      by_cases h2 : hid = h
      · subst h2
        rw [hw] at hq
        injection hq with hq2
        refine ⟨rt.1 - 1, ?_⟩
        show ((w.impls.set hid (rt.1 - 1, rt.2)) ++ [(1, rt.2)])[hid]? = some (rt.1 - 1, tb)
        rw [list_append_get _ _ _ (by rw [List.length_set]; exact hlt),
          list_set_get_eq _ _ _ hlt, ← hq2]
      · refine ⟨rc', ?_⟩
        show ((w.impls.set hid (rt.1 - 1, rt.2)) ++ [(1, rt.2)])[h]? = some (rc', tb)
        rw [list_append_get _ _ _ (by rw [List.length_set]; exact hlt),
          list_set_get_ne _ _ _ _ h2, hw]

theorem mutateAt_ne (w : World) (hid h : Nat) (f : Table → Table) (hne : hid ≠ h) :
    (mutateAt w hid f).impls[h]? = w.impls[h]? := by
  rcases hq : w.impls[hid]? with _ | rt
  · have hc : mutateAt w hid f = w := by rw [mutateAt, hq]
    rw [hc]
  · have hc : mutateAt w hid f = ⟨w.impls.set hid (rt.1, f rt.2)⟩ := by rw [mutateAt, hq]
    rw [hc]
    exact list_set_get_ne _ _ _ _ hne

/-- The invariant carried through applyStrCfg on a handle: the watched
index still holds the original table, and if the handle still points there
the entry is still shared. -/
def keepsEntry (h : Nat) (tb : Table) (wh : World × Nat) : Prop :=
  ∃ rc2, wh.1.impls[h]? = some (rc2, tb) ∧ (wh.2 = h → 2 ≤ rc2)

theorem processSegW_keeps (h : Nat) (tb : Table) (wh wh' : World × Nat) (sg : Str)
    (hI : keepsEntry h tb wh) (hp : processSegW wh sg = .ok wh') :
    keepsEntry h tb wh' := by
  obtain ⟨rc2, hw, hrc⟩ := hI
  replace hp : (if trim sg = [] then Except.ok wh
      else if trim sg = ("ignorefilecfg".toList) then Except.error ErrKind.badInput
      else match splitCh '=' (trim sg) with
        | [k, v] =>
          if trim k = [] then Except.error ErrKind.badInput
          else match (cow wh.1 wh.2).1.tableOf (cow wh.1 wh.2).2 with
            | none => Except.error ErrKind.logicError
            | some t =>
              match setValByStr t (trim k) (trim v) with
              | .error e => Except.error e
              | .ok t1 => Except.ok (mutateAt (cow wh.1 wh.2).1 (cow wh.1 wh.2).2
                  (fun _ => t1), (cow wh.1 wh.2).2)
        | _ => Except.error ErrKind.badInput) = Except.ok wh' := hp
  by_cases h0 : trim sg = []
  · rw [if_pos h0] at hp
    injection hp with hp2
    rw [← hp2]
    exact ⟨rc2, hw, hrc⟩
  · rw [if_neg h0] at hp
    by_cases h1 : trim sg = ("ignorefilecfg".toList)
    · rw [if_pos h1] at hp
      exact Except.noConfusion hp
    · rw [if_neg h1] at hp
      obtain ⟨⟨rc3, hw3⟩, hne3⟩ := cow_facts wh.1 wh.2 h rc2 tb hw
        (by by_cases he : wh.2 = h
            · exact Or.inr (hrc he)
            · exact Or.inl he)
      rcases hs : splitCh '=' (trim sg) with _ | ⟨k, rest⟩
      · rw [hs] at hp
        exact Except.noConfusion hp
      · rcases rest with _ | ⟨v, rest2⟩
        · rw [hs] at hp
          exact Except.noConfusion hp
        · rcases rest2 with _ | _
          · replace hp : (if trim k = [] then Except.error ErrKind.badInput
                else match (cow wh.1 wh.2).1.tableOf (cow wh.1 wh.2).2 with
                  | none => Except.error ErrKind.logicError
                  | some t =>
                    match setValByStr t (trim k) (trim v) with
                    | .error e => Except.error e
                    | .ok t1 => Except.ok (mutateAt (cow wh.1 wh.2).1 (cow wh.1 wh.2).2
                        (fun _ => t1), (cow wh.1 wh.2).2)) = Except.ok wh' := by
              rw [hs] at hp
              exact hp
            by_cases h2 : trim k = []
            · rw [if_pos h2] at hp
              exact Except.noConfusion hp
            · rw [if_neg h2] at hp
              rcases ht : (cow wh.1 wh.2).1.tableOf (cow wh.1 wh.2).2 with _ | t
              · rw [ht] at hp
                exact Except.noConfusion
                  (hp : (Except.error ErrKind.logicError : Except ErrKind (World × Nat))
                    = .ok wh')
              · replace hp : (match setValByStr t (trim k) (trim v) with
                    | .error e => Except.error e
                    | .ok t1 => Except.ok (mutateAt (cow wh.1 wh.2).1 (cow wh.1 wh.2).2
                        (fun _ => t1), (cow wh.1 wh.2).2)) = Except.ok wh' := by
                  rw [ht] at hp
                  exact hp
                rcases hsv : setValByStr t (trim k) (trim v) with e | t1
                · rw [hsv] at hp
                  exact Except.noConfusion
                    (hp : (Except.error e : Except ErrKind (World × Nat)) = .ok wh')
                · rw [hsv] at hp
                  have hp2 : (Except.ok (mutateAt (cow wh.1 wh.2).1 (cow wh.1 wh.2).2
                      (fun _ => t1), (cow wh.1 wh.2).2) : Except ErrKind (World × Nat))
                      = .ok wh' := hp
                  injection hp2 with hp3
                  rw [← hp3]
                  exact ⟨rc3, by rw [mutateAt_ne _ _ _ _ hne3]; exact hw3,
                    fun he => absurd he hne3⟩
          · rw [hs] at hp
            exact Except.noConfusion hp

theorem processSegsW_keeps (h : Nat) (tb : Table) :
    ∀ (segs : List Str) (wh wh' : World × Nat),
      keepsEntry h tb wh → processSegsW wh segs = .ok wh' → keepsEntry h tb wh' := by
  intro segs
  induction segs with
  | nil =>
    intro wh wh' hI hp
    replace hp : (Except.ok wh : Except ErrKind (World × Nat)) = Except.ok wh' := hp
    injection hp with hp2
    rw [← hp2]
    exact hI
  | cons sg rest ih =>
    intro wh wh' hI hp
    replace hp : (match processSegW wh sg with
      | .error e => Except.error e
      | .ok wh1 => processSegsW wh1 rest) = Except.ok wh' := hp
    rcases hq : processSegW wh sg with e | wh1
    · rw [hq] at hp
      exact Except.noConfusion (hp : (Except.error e : Except ErrKind (World × Nat)) = .ok wh')
    · rw [hq] at hp
      exact ih wh1 wh' (processSegW_keeps h tb wh wh1 sg hI hq)
        (hp : processSegsW wh1 rest = .ok wh')

/-- C2: with a shared parameter table (refcount at least 2 at the handle's
index), every setter — the generic value setter, set_temp, and applyStrCfg
— first clones through cow, so the table observed through the other handle
at that index is unchanged afterwards. -/
theorem C2_cow (w : World) (h : Nat) (rc : Nat) (tb : Table)
    (hw : w.impls[h]? = some (rc, tb)) (hrc : 2 ≤ rc) :
    (∀ (p : Param) (v : PValue), ((setParamW w h p v).1).tableOf h = some tb)
    ∧ (∀ dv : DVal, ((set_tempW w h dv).1).tableOf h = some tb)
    ∧ (∀ (s : Str) (wh' : World × Nat), applyStrCfgW w h s = .ok wh' →
        wh'.1.tableOf h = some tb) := by
  obtain ⟨⟨rc3, hw3⟩, hne3⟩ := cow_facts w h h rc tb hw (Or.inr hrc)
  have hset : ∀ (p : Param) (v : PValue), ((setParamW w h p v).1).tableOf h = some tb := by
    intro p v
    show ((mutateAt (cow w h).1 (cow w h).2 fun t => t.set p v).impls[h]?).map (·.2)
      = some tb
    rw [mutateAt_ne _ _ _ _ hne3, hw3]
    rfl
  refine ⟨hset, fun dv => hset .temp (.dblV dv []), ?_⟩
  intro s wh' hp
  rw [applyStrCfgW] at hp
  cases hA : isSimpleASCII s true true
  · rw [hA] at hp
    exact Except.noConfusion
      (hp : (Except.error ErrKind.badInput : Except ErrKind (World × Nat)) = .ok wh')
  · rw [hA] at hp
    cases hB : containsAny s forbiddenCfgChars
    · rw [hB] at hp
      replace hp : processSegsW (w, h) (splitCh ';' s) = Except.ok wh' := hp
      obtain ⟨rc4, hw4, -⟩ := processSegsW_keeps h tb (splitCh ';' s) (w, h) wh'
        ⟨rc, hw, fun _ => hrc⟩ hp
      show (wh'.1.impls[h]?).map (·.2) = some tb
      rw [hw4]
      rfl
    · rw [hB] at hp
      exact Except.noConfusion
        (hp : (Except.error ErrKind.badInput : Except ErrKind (World × Nat)) = .ok wh')

/-- Witness for C2 at a world of one doubly-referenced table. -/
theorem C2_cow_witness :
    ((setParamW ⟨[(2, emptyTable)]⟩ 0 .coh_elas (.boolV true)).1).tableOf 0
      = some emptyTable :=
  (C2_cow ⟨[(2, emptyTable)]⟩ 0 2 emptyTable rfl (by decide)).1 .coh_elas (.boolV true)

end NCrystal
